import Mathlib

/-
Verification of the ThesisTranslator text-pipeline core against its
specification.

The Python sources are shallowly embedded as Lean functions over
List Char (one Char per Unicode code point, matching Python's str
indexing).  Regular-expression substitutions from the source are
embedded by their leftmost-match / greedy-with-backtracking semantics,
derived pattern by pattern and documented at each definition.
Character classes are modelled for the ASCII range (plus the explicit
CJK range used by the source), which covers every string the
specification and the test-suite exercise.
-/

/-- Python regex class \s and str.strip default class, ASCII range:
space, tab, newline, carriage return, vertical tab, form feed. -/
def isPySpace (c : Char) : Bool :=
  c = ' ' || c = '\t' || c = '\n' || c = '\r' || c = '\x0b' || c = '\x0c'

/-- Python regex class \d, ASCII range. -/
def isPyDigit (c : Char) : Bool :=
  '0' ≤ c && c ≤ '9'

/-- Python regex class \w, ASCII range: letters, digits, underscore. -/
def isPyWord (c : Char) : Bool :=
  c.isAlpha || isPyDigit c || c = '_'

/-- Embeds Python str.strip(): remove leading and trailing whitespace. -/
def pyStrip (l : List Char) : List Char :=
  (((l.dropWhile isPySpace).reverse.dropWhile isPySpace)).reverse

/-- String-level wrapper for pyStrip. -/
def pyStripS (s : String) : String :=
  ⟨pyStrip s.data⟩

/-- Embeds Python str.split with separator a single newline, as used by
content.split(chr 10) in the markdown generator: splitting never yields
the empty list; an empty input yields one empty field. -/
def splitLines : List Char → List (List Char)
  | [] => [[]]
  | c :: rest =>
    let r := splitLines rest
    if c = '\n' then [] :: r else (c :: r.headI) :: r.tail

/-- Joins a list of lists with a separator, as Python str.join does. -/
def joinWith (sep : List Char) : List (List Char) → List Char
  | [] => []
  | [x] => x
  | x :: y :: rest => x ++ sep ++ joinWith sep (y :: rest)

/--
Scanning helper for the regex fragment matching a newline followed by
more whitespace inside the substitution patterns of the source
(text_cleaner.process_title_tags and process_end_tags use the pattern
newline, \s-star, newline).  Given the text that follows a newline,
wsLastNl returns the suffix that follows the LAST newline inside the
leading whitespace run, or none when that run has no newline.  This is
exactly where the greedy \s-star followed by a final newline ends after
backtracking.
-/
def wsLastNl : List Char → Option (List Char)
  | [] => none
  | c :: rest =>
    if c = '\n' then some ((wsLastNl rest).getD rest)
    else if isPySpace c then wsLastNl rest
    else none

theorem wsLastNl_length : ∀ l r, wsLastNl l = some r → r.length < l.length := by
  intro l
  induction l with
  | nil => intro r h; simp [wsLastNl] at h
  | cons c rest ih =>
    intro r h
    simp only [wsLastNl] at h
    split at h
    · cases hr : wsLastNl rest with
      | none => simp [hr] at h; subst h; simp
      | some r2 =>
        simp [hr] at h
        subst h
        have := ih r2 hr
        simp; omega
    · split at h
      · have := ih r h; simp; omega
      · exact absurd h (by simp)

/--
Embeds re.sub of the pattern newline, \s-star, newline with
replacement of two newlines (text_cleaner.py lines 255 and 276,
comment: remove redundant blank lines).  Leftmost-match semantics: a
match starts at a newline whose following whitespace run contains at
least one further newline; greedy \s-star with backtracking makes the
match end at the last newline of that run; scanning resumes after the
match.  When no match starts at the current character it is copied.
-/
def nlCollapse2 (l : List Char) : List Char :=
  match l with
  | [] => []
  | c :: rest =>
    if h : c = '\n' ∧ (wsLastNl rest).isSome then
      '\n' :: '\n' :: nlCollapse2 ((wsLastNl rest).getD [])
    else c :: nlCollapse2 rest
  termination_by l.length
  decreasing_by
  · obtain ⟨-, h2⟩ := h
    obtain ⟨r, hr⟩ := Option.isSome_iff_exists.mp h2
    have := wsLastNl_length rest r hr
    simp [hr]
    omega
  · simp

/-- Literal token replaced by process_end_tags. -/
def endTag : List Char := ['<', 'E', 'n', 'd', '>']

/-- Opening sentinel of the title marker. -/
def openTag : List Char := ['<', 'T', 'i', 't', 'l', 'e', '>']

/-- Embeds the Python membership test for the end marker: true iff the
list contains the literal end tag as a contiguous sublist. -/
def hasEndTag (l : List Char) : Bool :=
  match l with
  | [] => false
  | c :: rest => endTag.isPrefixOf (c :: rest) || hasEndTag rest

/-- Embeds str.replace of the end tag by a newline
(text_cleaner.py line 273): every non-overlapping occurrence,
scanning left to right. -/
def replaceEnd (l : List Char) : List Char :=
  match l with
  | [] => []
  | c :: rest =>
    if endTag.isPrefixOf (c :: rest) then '\n' :: replaceEnd (rest.drop 4)
    else c :: replaceEnd rest
  termination_by l.length
  decreasing_by
  · have : (rest.drop 4).length ≤ rest.length := by
      simpa using List.length_drop_le 4 rest
    simp; omega
  · simp

/--
Non-greedy search for the closing title tag, embedding the capture
group of the regex in text_cleaner.py line 252: the pattern is the
open tag, a lazy dot-star (dot does not match a newline), then the
close tag.  Given the text after an open tag, findClose returns the
shortest newline-free prefix X followed by the close tag, together
with the remainder after the close tag.
-/
def findClose : List Char → Option (List Char × List Char)
  | '<' :: '/' :: 'T' :: 'i' :: 't' :: 'l' :: 'e' :: '>' :: rest => some ([], rest)
  | [] => none
  | c :: rest =>
    if c = '\n' then none
    else (findClose rest).map (fun p => (c :: p.1, p.2))

theorem findClose_length :
    ∀ l x r, findClose l = some (x, r) → x.length + 8 + r.length = l.length := by
  intro l
  induction l with
  | nil => intro x r h; simp [findClose] at h
  | cons c rest ih =>
    intro x r h
    rw [findClose.eq_def] at h
    split at h
    · rename_i rest2 heq
      simp only [List.cons.injEq] at heq
      obtain ⟨hc, hrest⟩ := heq
      simp only [Option.some.injEq, Prod.mk.injEq] at h
      obtain ⟨h1, h2⟩ := h
      subst h1
      subst h2
      subst hrest
      simp only [List.length_cons, List.length_nil]
      omega
    · exact absurd h (by simp)
    · rename_i c2 rest2 hno hne
      simp only [List.cons.injEq] at hne
      obtain ⟨hc, hrest⟩ := hne
      subst hc
      subst hrest
      split at h
      · exact absurd h (by simp)
      · cases hf : findClose rest with
        | none => rw [hf] at h; simp at h
        | some p =>
          rw [hf] at h
          simp only [Option.map_some', Option.some.injEq, Prod.mk.injEq] at h
          obtain ⟨h1, h2⟩ := h
          have hp := ih p.1 p.2 (by rw [hf])
          subst h1
          subst h2
          simp only [List.length_cons]
          omega

/--
Embeds re.sub of the lazy title-pair pattern with replacement
newline, two hash marks, space, the captured text, newline
(text_cleaner.py line 252).  Scanning left to right: where the open
tag starts a complete single-line pair, the pair is rewritten and
scanning resumes after the close tag; otherwise the current character
is copied (this covers both a non-tag character and an open tag with
no matching close, which the regex engine passes over one character at
a time).
-/
def titleSub (l : List Char) : List Char :=
  match l with
  | [] => []
  | c :: rest =>
    if h : openTag.isPrefixOf (c :: rest) ∧ (findClose (rest.drop 6)).isSome then
      let p := (findClose (rest.drop 6)).getD ([], [])
      '\n' :: '#' :: '#' :: ' ' :: (p.1 ++ '\n' :: titleSub p.2)
    else c :: titleSub rest
  termination_by l.length
  decreasing_by
  · obtain ⟨-, h2⟩ := h
    obtain ⟨q, hq⟩ := Option.isSome_iff_exists.mp h2
    have hlen := findClose_length _ q.1 q.2 (by rw [hq])
    have hd : (rest.drop 6).length ≤ rest.length := by
      simp [List.length_drop]
    simp [hq]
    omega
  · simp

/-- Detects a complete single-line title pair starting at some position:
an open tag followed (on the same line) by a close tag.  This is the
condition under which the title regex of the source finds a match. -/
def hasTitlePairB (l : List Char) : Bool :=
  match l with
  | [] => false
  | c :: rest =>
    (openTag.isPrefixOf (c :: rest) && (findClose (rest.drop 6)).isSome)
      || hasTitlePairB rest

/--
Embeds TextCleaner.process_title_tags (text_cleaner.py lines 237-257):
empty text is returned as is; otherwise the title pairs are rewritten,
redundant blank lines are collapsed, and the result is stripped.
-/
def process_title_tags (text : String) : String :=
  if text = "" then ""
  else ⟨pyStrip (nlCollapse2 (titleSub text.data))⟩

/--
Embeds TextCleaner.process_end_tags (text_cleaner.py lines 259-278):
empty text is returned as is; otherwise every end tag becomes a
newline and redundant blank lines are collapsed.  Note: unlike
process_title_tags, the result is NOT stripped.
-/
def process_end_tags (text : String) : String :=
  if text = "" then ""
  else ⟨nlCollapse2 (replaceEnd text.data)⟩

/--
Embeds TextCleaner.process_cleaned_output (text_cleaner.py lines
216-235): the title transform followed by the end transform.
-/
def process_cleaned_output (cleaned_text : String) : String :=
  if cleaned_text = "" then ""
  else process_end_tags (process_title_tags cleaned_text)

theorem dropWhileLenLe (p : Char → Bool) (l : List Char) :
    (l.dropWhile p).length ≤ l.length := by
  induction l with
  | nil => simp
  | cons c rest ih =>
    by_cases h : p c = true
    · simp [List.dropWhile, h]; omega
    · simp [List.dropWhile, h]

/-- Embeds re.sub of one-or-more whitespace by a single space
(text_cleaner.py line 126): each maximal whitespace run becomes one
space. -/
def wsRunsToSpace (l : List Char) : List Char :=
  match l with
  | [] => []
  | c :: rest =>
    if isPySpace c then ' ' :: wsRunsToSpace (rest.dropWhile isPySpace)
    else c :: wsRunsToSpace rest
  termination_by l.length
  decreasing_by
  · have := dropWhileLenLe isPySpace rest
    simp; omega
  · simp

/-- Word-boundary test for the position after the given previous
character (none at the start of the string): the regex token \b holds
before a digit exactly when the previous character is absent or not a
word character. -/
def atBoundary : Option Char → Bool
  | none => true
  | some p => !isPyWord p

/--
Scanning core of re.sub of the pattern word-boundary, digits,
\s-star, end-anchor, with empty replacement (text_cleaner.py line
129).  A match starts at the leftmost digit run that sits at a word
boundary and after which the rest of the string is entirely
whitespace; greedy \s-star then extends the match to the end of the
string, so the whole suffix from that run on is removed.  A digit run
failing the test is skipped whole (no boundary exists inside it).
-/
def stnGo (prev : Option Char) (l : List Char) : List Char :=
  match l with
  | [] => []
  | c :: rest =>
    if h : atBoundary prev && isPyDigit c then
      let run := (c :: rest).takeWhile isPyDigit
      let after := (c :: rest).dropWhile isPyDigit
      if after.all isPySpace then []
      else run ++ stnGo (some ((run.getLast?).getD c)) after
    else c :: stnGo (some c) rest
  termination_by l.length
  decreasing_by
  · have hc : isPyDigit c = true := by
      cases hx : isPyDigit c
      · rw [hx] at h; simp at h
      · rfl
    have heq : (c :: rest).dropWhile isPyDigit = rest.dropWhile isPyDigit := by
      simp [List.dropWhile, hc]
    have := dropWhileLenLe isPyDigit rest
    simp only [heq]
    simp; omega
  · simp

/-- Embeds re.sub of the trailing page-number pattern
(text_cleaner.py line 129). -/
def stripTrailingNumber (l : List Char) : List Char :=
  stnGo none l

/--
Embeds re.sub of the pattern start-anchor, \s-star, digits,
word-boundary, with empty replacement (text_cleaner.py line 130).
Anchored at the string start, so at most one match: leading whitespace
followed by a digit run is removed when the run ends at a word
boundary (next character missing or not a word character).
-/
def stripLeadingNumber (l : List Char) : List Char :=
  let r := l.dropWhile isPySpace
  let d := r.takeWhile isPyDigit
  let after := r.dropWhile isPyDigit
  if d ≠ [] && (match after with
                | [] => true
                | a :: _ => !isPyWord a) then after
  else l

/-- Embeds re.sub of the bracketed-reference pattern: left bracket,
digits, right bracket, removed everywhere (text_cleaner.py line 133). -/
def removeRefs (l : List Char) : List Char :=
  match l with
  | [] => []
  | c :: rest =>
    if c = '[' && (rest.takeWhile isPyDigit) ≠ [] &&
        (rest.dropWhile isPyDigit).head? = some ']' then
      removeRefs ((rest.dropWhile isPyDigit).drop 1)
    else c :: removeRefs rest
  termination_by l.length
  decreasing_by
  · have h1 := dropWhileLenLe isPyDigit rest
    have h2 : ((rest.dropWhile isPyDigit).drop 1).length ≤ (rest.dropWhile isPyDigit).length := by
      simp [List.length_drop]
    simp; omega
  · simp

/-- Embeds TextCleaner._basic_clean (text_cleaner.py lines 110-135):
strip, collapse whitespace runs, drop a trailing page number, drop a
leading page number, drop bracketed reference marks, strip again. -/
def basicClean (l : List Char) : List Char :=
  pyStrip (removeRefs (stripLeadingNumber (stripTrailingNumber (wsRunsToSpace (pyStrip l)))))

/-- Per-instance counters of TextCleaner (text_cleaner.py lines 36-40).
The wall-clock timing counters are not modelled (real time). -/
structure CleanerStats where
  total_cleanings : Nat
  successful_cleanings : Nat
  failed_cleanings : Nat
  deriving DecidableEq, Repr

/--
Embeds TextCleaner.clean_text_chunk (text_cleaner.py lines 42-108).
The OpenAI completion collaborator is abstracted as an Except value:
ok with the message content when the call returns, error when it
raises.  A blank chunk short-circuits to the empty string; a raised
completion is caught inside the method (except Exception) and answered
with the basic-cleaning fallback, so the embedded function is total:
no exception propagates to the caller.
-/
def clean_text_chunk (stats : CleanerStats) (completion : Except String String)
    (text_chunk : String) : String × CleanerStats :=
  if pyStrip text_chunk.data = [] then ("", stats)
  else
    let stats1 := { stats with total_cleanings := stats.total_cleanings + 1 }
    match completion with
    | Except.ok content =>
        (⟨pyStrip content.data⟩,
         { stats1 with successful_cleanings := stats1.successful_cleanings + 1 })
    | Except.error _ =>
        (⟨basicClean text_chunk.data⟩,
         { stats1 with failed_cleanings := stats1.failed_cleanings + 1 })

/--
Embeds the attempt loop of TextCleaner.clean_with_retry
(text_cleaner.py lines 167-190).  Each iteration runs the try body;
because clean_text_chunk is total (it catches every collaborator
exception itself), the body's outcome is always the ok constructor,
written explicitly below so the except branches of the source remain
visible.  The error branch mirrors except TextCleaningError: retry
while attempts remain, else fall back; it is unreachable.  When the
range is exhausted without returning, Python falls off the loop and
returns None.
-/
def clean_with_retry_loop (stats : CleanerStats) (completions : Nat → Except String String)
    (text_chunk : String) : Nat → Nat → Option (String × CleanerStats)
  | _, 0 => none
  | attempt, remaining + 1 =>
    match (Except.ok (clean_text_chunk stats (completions attempt) text_chunk) :
           Except String (String × CleanerStats)) with
    | Except.ok r => some r
    | Except.error _ =>
        if remaining > 0 then
          clean_with_retry_loop stats completions text_chunk (attempt + 1) remaining
        else some (⟨basicClean text_chunk.data⟩, stats)

/-- Embeds TextCleaner.clean_with_retry: run the attempt loop with the
given retry ceiling (source default 3). -/
def clean_with_retry (stats : CleanerStats) (completions : Nat → Except String String)
    (text_chunk : String) (max_retries : Nat) : Option (String × CleanerStats) :=
  clean_with_retry_loop stats completions text_chunk 0 max_retries

example : titleSub "<Title>A</Title>B".data = ('\n' :: ("## A".data ++ ['\n'] ++ ['B'])) := by
  simp [titleSub, findClose, openTag, List.isPrefixOf]

example : process_cleaned_output "a<End>" = "a\n" := by
  simp [process_cleaned_output, process_title_tags, process_end_tags, titleSub,
        replaceEnd, nlCollapse2, wsLastNl, pyStrip, isPySpace, openTag, endTag,
        findClose, List.isPrefixOf, String.ext_iff]

example : process_cleaned_output "a\n" = "a" := by
  simp [process_cleaned_output, process_title_tags, process_end_tags, titleSub,
        replaceEnd, nlCollapse2, wsLastNl, pyStrip, isPySpace, openTag, endTag,
        findClose, List.isPrefixOf, String.ext_iff]

example : nlCollapse2 "x\n \ny".data = "x\n\ny".data := by
  simp [nlCollapse2, wsLastNl, isPySpace]

example : basicClean "  12 Hello [3] World 7 ".data = "Hello  World".data := by
  simp [basicClean, pyStrip, wsRunsToSpace, stnGo, stripTrailingNumber,
        stripLeadingNumber, removeRefs, atBoundary, isPySpace, isPyDigit, isPyWord]

/-- Embeds a Python slice s[a:b] with step one: negative indices count
from the end, out-of-range indices are clamped. -/
def pySlice (l : List Char) (a b : Int) : List Char :=
  let n : Int := l.length
  let a2 : Nat := (if a < 0 then max 0 (n + a) else min a n).toNat
  let b2 : Nat := (if b < 0 then max 0 (n + b) else min b n).toNat
  (l.take b2).drop a2

/-- Configuration record stored by TextChunker.__init__
(text_chunker.py lines 11-20).  Python integers are signed and
unbounded, hence Int fields. -/
structure TextChunker where
  chunk_size : Int
  overlap_size : Int
  deriving DecidableEq, Repr

/-- Embeds TextChunker.__init__ (text_chunker.py lines 11-20): the two
parameters are stored verbatim; no validation of any kind is
performed and construction cannot fail. -/
def mkTextChunker (chunk_size : Int) (overlap_size : Int) : TextChunker :=
  { chunk_size := chunk_size, overlap_size := overlap_size }

/-- Modelled from the spec: the specification requires construction to
raise InvalidConfiguration when overlapSize is at least chunkSize or
when chunkSize is nonpositive (spec sections 4.2 and 7).  This checked
constructor follows the spec words; it exists only to be compared
against mkTextChunker, which embeds the actual code. -/
def specMkTextChunker (chunk_size : Int) (overlap_size : Int) :
    Except String TextChunker :=
  if chunk_size ≤ 0 ∨ overlap_size ≥ chunk_size then
    Except.error "InvalidConfiguration"
  else Except.ok { chunk_size := chunk_size, overlap_size := overlap_size }

/--
Embeds the chunking loop of TextChunker.create_chunks
(text_chunker.py lines 40-60) with explicit fuel (the source loop can
diverge for invalid configurations, e.g. chunk size zero with overlap
zero on nonempty text; the fuel makes the embedding total and
termination is proved for valid configurations).  One fuel unit is one
iteration of the while loop; none means the fuel ran out before the
loop finished.
-/
def splitLoop (cs ov : Int) (text : List Char) :
    Nat → Int → List (List Char) → Option (List (List Char))
  | 0, _, _ => none
  | fuel + 1, start, chunks =>
    if start < (text.length : Int) then
      let e := min (start + cs) (text.length : Int)
      let chunk := pySlice text start e
      let chunks2 := chunks ++ [chunk]
      let start2raw := e - ov
      let start2 := if start2raw ≥ e then e else start2raw
      if (text.length : Int) - start2 ≤ ov then
        if start2 < (text.length : Int) then
          some (chunks2 ++ [pySlice text start2 (text.length : Int)])
        else some chunks2
      else splitLoop cs ov text fuel start2 chunks2
    else some chunks

/-- Embeds the text-splitting part of TextChunker.create_chunks applied
to the merged text (text_chunker.py lines 40-60), with fuel one more
than the text length, which the termination theorem shows is enough
for every valid configuration. -/
def create_chunks (c : TextChunker) (merged_text : List Char) : Option (List (List Char)) :=
  splitLoop c.chunk_size c.overlap_size merged_text (merged_text.length + 1) 0 []

/-- Removes the designed overlap duplication from a chunk sequence: the
first chunk is kept whole and every later chunk loses its first ov
characters, which are exactly the characters shared with its
predecessor.  Concatenating the results is the reconstruction the spec
describes. -/
def glue (ov : Int) : List (List Char) → List Char
  | [] => []
  | c :: rest => c ++ (rest.map (fun d => d.drop ov.toNat)).foldr (· ++ ·) []

example : create_chunks (mkTextChunker 4 1) "abcdefghij".data =
    some ["abcd".data, "defg".data, "ghij".data, "j".data] := by
  simp [create_chunks, mkTextChunker, splitLoop, pySlice]

example : glue 1 ["abcd".data, "defg".data, "ghij".data, "j".data] = "abcdefghij".data := by
  simp [glue]

/-- Embeds Python str.startswith with a one-character hash prefix,
used by the markdown generator. -/
def startsWithHash : List Char → Bool
  | [] => false
  | c :: _ => c = '#'

/--
Companion of wsLastNl for the generator's blank-line pattern
(markdown_generator.py line 69): newline, \s-star, newline, \s-star,
newline.  Given the text after the first newline, the match needs two
further newlines inside the leading whitespace run and, by the same
greedy backtracking, ends at the last newline of that run; wsLastNl2
returns the suffix after that last newline, or none when the run has
fewer than two further newlines.
-/
def wsLastNl2 : List Char → Option (List Char)
  | [] => none
  | c :: rest =>
    if c = '\n' then wsLastNl rest
    else if isPySpace c then wsLastNl2 rest
    else none

theorem wsLastNl2_length : ∀ l r, wsLastNl2 l = some r → r.length < l.length := by
  intro l
  induction l with
  | nil => intro r h; simp [wsLastNl2] at h
  | cons c rest ih =>
    intro r h
    simp only [wsLastNl2] at h
    split at h
    · have := wsLastNl_length rest r h
      simp; omega
    · split at h
      · have := ih r h; simp; omega
      · exact absurd h (by simp)

/-- Embeds re.sub of the three-newline pattern with a two-newline
replacement (markdown_generator.py line 69), with the leftmost-match
greedy semantics explained at wsLastNl2. -/
def nlCollapse3 (l : List Char) : List Char :=
  match l with
  | [] => []
  | c :: rest =>
    if h : c = '\n' ∧ (wsLastNl2 rest).isSome then
      '\n' :: '\n' :: nlCollapse3 ((wsLastNl2 rest).getD [])
    else c :: nlCollapse3 rest
  termination_by l.length
  decreasing_by
  · obtain ⟨-, h2⟩ := h
    obtain ⟨r, hr⟩ := Option.isSome_iff_exists.mp h2
    have := wsLastNl2_length rest r hr
    simp [hr]
    omega
  · simp

/--
Embeds MarkdownGenerator.generate_markdown (markdown_generator.py
lines 51-82): join the chunks with a blank line, collapse runs of
three or more newlines, and when the stripped result does not open
with a hash, promote its stripped first line to a level-one heading
(only when that line is non-empty and itself hash-free); otherwise
return the collapsed join unchanged (unstripped).
-/
def generate_markdown (translated_chunks : List String) : String :=
  if translated_chunks = [] then ""
  else
    let md := joinWith ['\n', '\n'] (translated_chunks.map String.data)
    let md2 := nlCollapse3 md
    if !(startsWithHash (pyStrip md2)) then
      let lines := splitLines (pyStrip md2)
      match lines with
      | [] => ⟨md2⟩
      | first :: restLines =>
        let first_line := pyStrip first
        if first_line ≠ [] && !(startsWithHash first_line) then
          ⟨'#' :: ' ' :: first_line ++ '\n' :: '\n' :: joinWith ['\n'] restLines⟩
        else ⟨md2⟩
    else ⟨md2⟩

/--
Embeds MarkdownGenerator.add_metadata (markdown_generator.py lines
84-114): empty content returns empty; a non-empty ordered metadata
mapping contributes the lines three-dashes, one key-colon-space-value
line per entry, three-dashes, and one empty line, joined with single
newlines and prepended to the content (the join of the trailing empty
line contributes a single newline before the content, not a blank
line); an empty mapping returns the content unchanged.
-/
def add_metadata (content : String) (metadata : List (String × String)) : String :=
  if content = "" then ""
  else
    let metadata_lines : List String :=
      if metadata = [] then []
      else ["---"] ++ metadata.map (fun kv => kv.1 ++ ": " ++ kv.2) ++ ["---", ""]
    if metadata_lines ≠ [] then
      ⟨joinWith ['\n'] (metadata_lines.map String.data) ++ content.data⟩
    else content

/-- Newline test as a named boolean predicate (keeps rewriting stable
in proofs about the scanners below). -/
def isNlChar (c : Char) : Bool := c = '\n'

/-- Negated newline test, the class matched by a greedy dot. -/
def notNlChar (c : Char) : Bool := !(c = '\n')

/-- Hash test for the heading patterns. -/
def isHashChar (c : Char) : Bool := c = '#'

theorem takeWhileLenLe (p : Char → Bool) (l : List Char) :
    (l.takeWhile p).length ≤ l.length := by
  induction l with
  | nil => simp
  | cons c rest ih =>
    by_cases h : p c = true
    · simp [List.takeWhile, h]; omega
    · simp [List.takeWhile, h]

/-- Splitting helper for the backtracking case of the heading regex of
create_table_of_contents: when the string ends inside the whitespace
run after the hashes, the engine captures the last non-newline
character of the run, provided it is not the run's first character,
and the match ends before the run's trailing newlines, which are
returned as the rescan suffix. -/
def splitLastNonNl (w : List Char) : Option (Char × List Char) :=
  let rev := w.reverse
  let nls := rev.takeWhile isNlChar
  let rest := rev.dropWhile isNlChar
  match rest with
  | [] => none
  | ch :: pre => if pre = [] then none else some (ch, nls.reverse)

theorem splitLastNonNl_length :
    ∀ w p q, splitLastNonNl w = some (p, q) → q.length + 2 ≤ w.length := by
  intro w p q h
  simp only [splitLastNonNl] at h
  split at h
  · exact absurd h (by simp)
  · rename_i ch pre heq
    split at h
    · exact absurd h (by simp)
    · rename_i hpre
      simp only [Option.some.injEq, Prod.mk.injEq] at h
      obtain ⟨h1, h2⟩ := h
      have hw : (w.reverse.takeWhile isNlChar).length +
          (w.reverse.dropWhile isNlChar).length = w.length := by
        rw [← List.length_append, List.takeWhile_append_dropWhile, List.length_reverse]
      rw [heq] at hw
      have hpre1 : 1 ≤ pre.length := by
        cases pre
        · exact absurd rfl hpre
        · simp
      have hq2 : q.length = (w.reverse.takeWhile isNlChar).length := by
        rw [← h2]; simp
      simp only [List.length_cons] at hw
      omega

/--
Embeds re.findall of the multiline heading pattern: line-start anchor,
one-or-more hashes as group one, one-or-more whitespace, then a
greedy newline-free group two, then the end-of-line anchor
(markdown_generator.py line 143).  Matches can only start at a line
start; after the hash run the pattern needs at least one whitespace
character; the greedy whitespace run then either reaches text before
the next newline (the normal capture: the rest of that line) or runs
to the end of the string, where backtracking can still capture a
single whitespace character (see splitLastNonNl).  The boolean tracks
whether the scan position is at a line start.
-/
theorem dropWhileHashCons (c : Char) (rest : List Char) (hc : isHashChar c = true) :
    (c :: rest).dropWhile isHashChar = rest.dropWhile isHashChar := by
  simp [List.dropWhile, hc]

def scanTitles (l : List Char) (ls : Bool) : List (List Char × List Char) :=
  match l with
  | [] => []
  | c :: rest =>
    if h : ls && isHashChar c then
      let hs := (c :: rest).takeWhile isHashChar
      let r1 := (c :: rest).dropWhile isHashChar
      let w := r1.takeWhile isPySpace
      let r2 := r1.dropWhile isPySpace
      if hw : w = [] then
        let r3 := (c :: rest).dropWhile notNlChar
        if hr3 : r3 = [] then []
        else scanTitles r3.tail true
      else if hr2 : r2 = [] then
        if hp : (splitLastNonNl w).isSome then
          let p := (splitLastNonNl w).getD (' ', [])
          (hs, [p.1]) :: scanTitles p.2 false
        else []
      else
        let t := r2.takeWhile notNlChar
        (hs, t) :: scanTitles (r2.dropWhile notNlChar) false
    else if c = '\n' then scanTitles rest true
    else scanTitles rest false
  termination_by l.length
  decreasing_by
  · have h1 : ((c :: rest).dropWhile notNlChar).length ≤ rest.length + 1 := by
      have := dropWhileLenLe notNlChar (c :: rest)
      simpa using this
    have h2 : ((c :: rest).dropWhile notNlChar).tail.length + 1 =
        ((c :: rest).dropWhile notNlChar).length := by
      cases hx : (c :: rest).dropWhile notNlChar
      · exact absurd hx hr3
      · simp
    simp
    omega
  · obtain ⟨q, hq⟩ := Option.isSome_iff_exists.mp hp
    have hql : q.2.length + 2 ≤
        (((c :: rest).dropWhile isHashChar).takeWhile isPySpace).length :=
      splitLastNonNl_length _ q.1 q.2 (by rw [hq])
    have hcs : isHashChar c = true := ((Bool.and_eq_true _ _).mp h).2
    have hr1 : ((c :: rest).dropWhile isHashChar).length ≤ rest.length := by
      rw [dropWhileHashCons c rest hcs]
      exact dropWhileLenLe _ rest
    have hwlen := takeWhileLenLe isPySpace ((c :: rest).dropWhile isHashChar)
    simp [hq]
    omega
  · have hcs : isHashChar c = true := ((Bool.and_eq_true _ _).mp h).2
    have hr1 : ((c :: rest).dropWhile isHashChar).length ≤ rest.length := by
      rw [dropWhileHashCons c rest hcs]
      exact dropWhileLenLe _ rest
    have hr2b := dropWhileLenLe isPySpace ((c :: rest).dropWhile isHashChar)
    have hdw := dropWhileLenLe notNlChar (((c :: rest).dropWhile isHashChar).dropWhile isPySpace)
    simp
    omega
  · simp
  · simp

/-- Character class kept by the anchor-slug substitution
(markdown_generator.py line 153): word characters, the CJK range
4E00-9FFF, hyphen, space; everything else is removed. -/
def keepAnchorChar (c : Char) : Bool :=
  isPyWord c || (0x4e00 ≤ c.toNat && c.toNat ≤ 0x9fff) || c = '-' || c = ' '

/-- Embeds the anchor-slug computation of create_table_of_contents:
remove disallowed characters, strip, lowercase, then replace spaces by
hyphens. -/
def anchorOf (title : List Char) : List Char :=
  ((pyStrip (title.filter keepAnchorChar)).map Char.toLower).map
    (fun c => if c = ' ' then '-' else c)

/-- Embeds one table-of-contents entry line: two spaces of indent per
nesting level below the first, then a bracketed link to the anchor. -/
def tocEntry (hs title : List Char) : List Char :=
  List.replicate (2 * (hs.length - 1)) ' ' ++
    ('-' :: ' ' :: '[' :: (title ++ (']' :: '(' :: '#' :: (anchorOf title ++ [')']))))

/-- Embeds the insertion loop of create_table_of_contents: the ToC
block is inserted immediately before the first line that opens with a
hash; later hash lines are left alone. -/
def insertBeforeHash (toc : List Char) : List (List Char) → List (List Char)
  | [] => []
  | ln :: ls2 =>
    if startsWithHash ln then toc :: ln :: ls2
    else ln :: insertBeforeHash toc ls2

/--
Embeds MarkdownGenerator.create_table_of_contents
(markdown_generator.py lines 129-174).  Empty content gives empty
output; when the heading scan finds no match the function returns the
EMPTY STRING (the content is discarded); otherwise the ToC block is
built and inserted before the first hash-opening line (or at the very
start when no line opens with a hash, which cannot happen when the
scan found a line-anchored match).
-/
def create_table_of_contents (content : String) : String :=
  if content = "" then ""
  else
    let titles := scanTitles content.data true
    if titles = [] then ""
    else
      let tocLines : List (List Char) :=
        ["## 目录".data, []] ++ titles.map (fun p => tocEntry p.1 p.2) ++ [[]]
      let toc := joinWith ['\n'] tocLines
      let lines := splitLines content.data
      let newLines :=
        if lines.any (fun ln => startsWithHash ln) then insertBeforeHash toc lines
        else toc :: lines
      ⟨joinWith ['\n'] newLines⟩

/-- Embeds str.count of the two-dollar token (markdown_generator.py
line 206): non-overlapping occurrences, scanning left to right. -/
def countDD : List Char → Nat
  | [] => 0
  | [_] => 0
  | c :: d :: rest =>
    if c = '$' ∧ d = '$' then countDD rest + 1
    else countDD (d :: rest)

/--
Embeds re.findall of the heading pattern of validate_markdown
(markdown_generator.py line 201) reduced to emptiness: the pattern is
line-start, one-or-more hashes, one-or-more whitespace, a greedy
possibly-empty newline-free run, end-of-line.  A match exists exactly
when some line-start hash run is followed by at least one whitespace
character (the whitespace may itself be a newline; the trailing
dot-star and the multiline end-anchor then always succeed).  The
boolean tracks whether the scan position is at a line start.
-/
def hasHeadingB (l : List Char) (ls : Bool) : Bool :=
  match l with
  | [] => false
  | c :: rest =>
    if h : ls && isHashChar c then
      let r1 := (c :: rest).dropWhile isHashChar
      match r1 with
      | [] => false
      | d :: _ =>
        if isPySpace d then true
        else
          let r3 := (c :: rest).dropWhile notNlChar
          if hr3 : r3 = [] then false
          else hasHeadingB r3.tail true
    else if c = '\n' then hasHeadingB rest true
    else hasHeadingB rest false
  termination_by l.length
  decreasing_by
  · have h1 : ((c :: rest).dropWhile notNlChar).length ≤ rest.length + 1 := by
      have := dropWhileLenLe notNlChar (c :: rest)
      simpa using this
    have h2 : ((c :: rest).dropWhile notNlChar).tail.length + 1 =
        ((c :: rest).dropWhile notNlChar).length := by
      cases hx : (c :: rest).dropWhile notNlChar
      · exact absurd hx hr3
      · simp
    simp
    omega
  · simp
  · simp

/-- Result record of validate_markdown. -/
structure ValidationResult where
  is_valid : Bool
  errors : List String
  warnings : List String
  deriving DecidableEq, Repr

/--
Embeds MarkdownGenerator.validate_markdown (markdown_generator.py
lines 176-214): empty content is invalid with the content-empty
error; otherwise a short-content warning (stripped length below ten),
a no-heading warning (heading scan finds nothing), and an unpaired
math-delimiter error (odd count of the two-dollar token); validity is
emptiness of the error list.
-/
def validate_markdown (content : String) : ValidationResult :=
  if content = "" then
    { is_valid := false, errors := ["内容为空"], warnings := [] }
  else
    let warnings :=
      (if (pyStrip content.data).length < 10 then ["内容过短"] else []) ++
      (if hasHeadingB content.data true then [] else ["未找到标题"])
    let errors :=
      if countDD content.data % 2 ≠ 0 then ["数学公式标记$$未正确配对"] else []
    { is_valid := errors.length = 0, errors := errors, warnings := warnings }

example : create_table_of_contents "hello" = "" := by
  simp [create_table_of_contents, scanTitles, isHashChar, String.ext_iff]

example : create_table_of_contents "# A\n## B" =
    "## 目录\n\n- [A](#a)\n  - [B](#b)\n\n# A\n## B" := by
  simp [create_table_of_contents, scanTitles, isHashChar, isPySpace, notNlChar,
        splitLastNonNl, isNlChar, tocEntry, anchorOf, keepAnchorChar, isPyWord,
        isPyDigit, pyStrip, joinWith, splitLines, insertBeforeHash, startsWithHash,
        String.ext_iff]

example : generate_markdown [] = "" := by
  simp [generate_markdown]

example : generate_markdown ["# Title", "Body text."] = "# Title\n\nBody text." := by
  simp [generate_markdown, joinWith, nlCollapse3, wsLastNl2, wsLastNl, isPySpace,
        pyStrip, startsWithHash, String.ext_iff]

example : generate_markdown [" # Title"] = " # Title" := by
  simp [generate_markdown, joinWith, nlCollapse3, wsLastNl2, wsLastNl, isPySpace,
        pyStrip, startsWithHash, String.ext_iff]

example : generate_markdown ["", "x"] = "# x\n\n" := by
  simp [generate_markdown, joinWith, nlCollapse3, wsLastNl2, wsLastNl, isPySpace,
        pyStrip, startsWithHash, splitLines, String.ext_iff]

example : add_metadata "# T\nBody" [("author", "A")] = "---\nauthor: A\n---\n# T\nBody" := by
  simp [add_metadata, joinWith, String.ext_iff]

example : validate_markdown "# T\n$$a$$\nBody" =
    { is_valid := true, errors := [], warnings := [] } := by
  simp [validate_markdown, countDD, hasHeadingB, isHashChar, isPySpace, notNlChar,
        pyStrip]

example : validate_markdown "# T\n$$a\nBody" =
    { is_valid := false, errors := ["数学公式标记$$未正确配对"], warnings := [] } := by
  simp [validate_markdown, countDD, hasHeadingB, isHashChar, isPySpace, notNlChar,
        pyStrip]

example : hasHeadingB "##\nx".data true = true := by
  simp [hasHeadingB, isHashChar, isPySpace, notNlChar]

example : hasHeadingB "hello".data true = false := by
  simp [hasHeadingB, isHashChar, isPySpace, notNlChar]

theorem pySlice_std (text : List Char) (a b : Int) (ha : 0 ≤ a) (han : a ≤ (text.length : Int))
    (hb : 0 ≤ b) (hbn : b ≤ (text.length : Int)) :
    pySlice text a b = (text.take b.toNat).drop a.toNat := by
  simp only [pySlice]
  have h1 : ¬ a < 0 := by omega
  have h2 : ¬ b < 0 := by omega
  rw [if_neg h1, if_neg h2, min_eq_left han, min_eq_left hbn]

theorem dropTakeDrop (text : List Char) (a b : Nat) (hab : a ≤ b) (hbn : b ≤ text.length) :
    (text.take b).drop a ++ text.drop b = text.drop a := by
  conv_rhs => rw [← List.take_append_drop b text]
  rw [List.drop_append_of_le_length]
  simp
  omega

theorem dropOfDrop (text : List Char) (a b : Nat) :
    (text.drop a).drop b = text.drop (a + b) := by
  rw [List.drop_drop]

theorem splitLoop_acc (cs ov : Int) (text : List Char) :
    ∀ fuel : Nat, ∀ start : Int, ∀ acc : List (List Char),
      splitLoop cs ov text fuel start acc =
        (splitLoop cs ov text fuel start []).map (acc ++ ·) := by
  intro fuel
  induction fuel with
  | zero => intro start acc; simp [splitLoop]
  | succ fuel ih =>
    intro start acc
    simp only [splitLoop]
    by_cases hA : start < (text.length : Int)
    · rw [if_pos hA, if_pos hA]
      set e := min (start + cs) (text.length : Int) with hedef
      set s2 := (if e - ov ≥ e then e else e - ov) with hs2def
      by_cases hB : (text.length : Int) - s2 ≤ ov
      · rw [if_pos hB, if_pos hB]
        by_cases hC : s2 < (text.length : Int)
        · rw [if_pos hC, if_pos hC]; simp
        · rw [if_neg hC, if_neg hC]; simp
      · rw [if_neg hB, if_neg hB]
        simp only [List.nil_append]
        rw [ih s2 (acc ++ [pySlice text start e]), ih s2 [pySlice text start e]]
        cases splitLoop cs ov text fuel s2 [] with
        | none => simp
        | some r => simp
    · rw [if_neg hA, if_neg hA]; simp

theorem glue_shift (ov : Int) (r : List (List Char)) (hd : List Char) (tl : List (List Char))
    (hr : r = hd :: tl) (hhd : ov.toNat ≤ hd.length) :
    (r.map (fun d => d.drop ov.toNat)).foldr (· ++ ·) [] = (glue ov r).drop ov.toNat := by
  subst hr
  simp only [glue, List.map_cons, List.foldr_cons]
  rw [List.drop_append_of_le_length hhd]


theorem pySlice_suffix (text : List Char) (a : Int) (ha : 0 ≤ a) (han : a ≤ (text.length : Int)) :
    pySlice text a (text.length : Int) = text.drop a.toNat := by
  rw [pySlice_std text a _ ha han (by positivity) le_rfl]
  simp

theorem drop_getLast (text : List Char) (a : Nat) (hne : text.drop a ≠ []) :
    (text.drop a).getLast? = text.getLast? := by
  conv_rhs => rw [← List.take_append_drop a text]
  rw [List.getLast?_append_of_ne_nil _ hne]

theorem splitLoop_spec (cs ov : Int) (text : List Char)
    (hcs : 0 < cs) (hov0 : 0 ≤ ov) (hovc : ov < cs) :
    ∀ fuel : Nat, ∀ start : Int, 0 ≤ start → start < (text.length : Int) →
      (text.length : Int) - start ≤ (fuel : Int) →
      ∃ r, splitLoop cs ov text fuel start [] = some r ∧
        r.head? = some (pySlice text start (min (start + cs) (text.length : Int))) ∧
        (∀ ch ∈ r, ch ≠ []) ∧
        glue ov r = text.drop start.toNat ∧
        (r.getLast?.bind List.getLast?) = text.getLast? := by
  intro fuel
  induction fuel with
  | zero =>
    intro start h0 h1 h2
    exfalso
    simp at h2
    omega
  | succ fuel ih =>
    intro start h0 h1 h2
    have hN0 : (0 : Int) ≤ (text.length : Int) := by positivity
    have hNpos : 0 < (text.length : Int) := by omega
    set N : Int := (text.length : Int) with hNdef
    set e : Int := min (start + cs) N with hedef
    have he1 : start < e := by rw [hedef]; omega
    have he2 : e ≤ N := by rw [hedef]; omega
    have hs2 : (if e - ov ≥ e then e else e - ov) = e - ov := by
      split_ifs with hx
      · omega
      · rfl
    have hchunk : pySlice text start e = (text.take e.toNat).drop start.toNat :=
      pySlice_std text start e h0 (by omega) (by omega) he2
    have hchunklen : (pySlice text start e).length = e.toNat - start.toNat := by
      rw [hchunk]
      simp [List.length_drop]
      omega
    have hchunkne : pySlice text start e ≠ [] := by
      intro hx
      have := congrArg List.length hx
      rw [hchunklen] at this
      simp at this
      omega
    simp only [splitLoop]
    rw [if_pos h1]
    simp only [← hNdef, ← hedef, hs2]
    by_cases hbr : N - (e - ov) ≤ ov
    · -- break iteration: happens exactly when the window reached the text end
      have heN : e = N := by omega
      have hchunkN : pySlice text start e = text.drop start.toNat := by
        rw [heN, pySlice_suffix text start h0 (by omega)]
      rw [if_pos hbr]
      by_cases htl : e - ov < N
      · -- the remainder is appended as one final chunk
        rw [if_pos htl]
        obtain ⟨a2, ha2lt, ha2eq, ha2ge⟩ :
            ∃ a2 : Nat, a2 < text.length ∧
              pySlice text (e - ov) N = text.drop a2 ∧ text.length ≤ a2 + ov.toNat := by
          by_cases hneg : 0 ≤ e - ov
          · refine ⟨(e - ov).toNat, by omega, ?_, by omega⟩
            rw [hNdef]
            exact pySlice_suffix text (e - ov) hneg (by omega)
          · refine ⟨(max 0 (N + (e - ov))).toNat, by omega, ?_, by omega⟩
            simp only [pySlice, ← hNdef]
            rw [if_pos (by omega : e - ov < 0), if_neg (by omega : ¬ N < 0), min_self]
            have hNn : N.toNat = text.length := by omega
            rw [hNn, List.take_length]
        have htailne : pySlice text (e - ov) N ≠ [] := by
          rw [ha2eq]
          intro hx
          have := congrArg List.length hx
          simp [List.length_drop] at this
          omega
        refine ⟨[pySlice text start e, pySlice text (e - ov) N], by simp, by simp, ?_, ?_, ?_⟩
        · intro ch hch
          simp at hch
          rcases hch with hch | hch
          · rw [hch]; exact hchunkne
          · rw [hch]; exact htailne
        · simp only [glue, List.map_cons, List.foldr_cons, List.map_nil, List.foldr_nil,
            List.append_nil]
          rw [ha2eq, dropOfDrop, List.drop_eq_nil_of_le (by omega), List.append_nil, hchunkN]
        · simp only [List.getLast?_cons_cons, List.getLast?_singleton, Option.some_bind]
          rw [ha2eq]
          apply drop_getLast
          rw [← ha2eq]
          exact htailne
      · -- no remainder: the overlap is zero and the window ended at the text end
        rw [if_neg htl]
        refine ⟨[pySlice text start e], by simp, by simp, ?_, ?_, ?_⟩
        · intro ch hch
          simp at hch
          rw [hch]
          exact hchunkne
        · simp only [glue, List.map_nil, List.foldr_nil, List.append_nil]
          exact hchunkN
        · simp only [List.getLast?_singleton, Option.some_bind]
          rw [hchunkN]
          apply drop_getLast
          rw [← hchunkN]
          exact hchunkne
    · -- the loop continues: the window did not reach the end of the text
      rw [if_neg hbr]
      have heeq : e = start + cs := by
        rcases min_cases (start + cs) N with ⟨hmin, hle⟩ | ⟨hmin, hle⟩
        · rw [hedef, hmin]
        · exfalso
          rw [hedef, hmin] at hbr
          omega
      have heltN : e < N := by omega
      have hs2pos : 0 ≤ e - ov := by omega
      have hs2lt : e - ov < N := by omega
      have hfuel : N - (e - ov) ≤ (fuel : Int) := by
        push_cast at h2 ⊢
        omega
      obtain ⟨r2, hr2eq, hr2head, hr2ne, hr2glue, hr2last⟩ := ih (e - ov) hs2pos hs2lt hfuel
      rw [splitLoop_acc, hr2eq]
      refine ⟨pySlice text start e :: r2, by simp, by simp, ?_, ?_, ?_⟩
      · intro ch hch
        simp at hch
        rcases hch with hch | hch
        · rw [hch]; exact hchunkne
        · exact hr2ne ch hch
      · obtain ⟨hd2, tl2, hr2cons⟩ : ∃ hd2 tl2, r2 = hd2 :: tl2 := by
          cases r2 with
          | nil => simp at hr2head
          | cons a b => exact ⟨a, b, rfl⟩
        have hhd2 : hd2 = pySlice text (e - ov) (min (e - ov + cs) N) := by
          rw [hr2cons] at hr2head
          simp at hr2head
          exact hr2head
        have hhd2len : ov.toNat ≤ hd2.length := by
          rw [hhd2, pySlice_std text (e - ov) (min (e - ov + cs) N) hs2pos (by omega)
            (by omega) (by omega)]
          simp [List.length_drop]
          omega
        have hshift := glue_shift ov r2 hd2 tl2 hr2cons hhd2len
        simp only [glue, List.map_cons, List.foldr_cons]
        rw [hshift, hr2glue, dropOfDrop]
        have hidx : (e - ov).toNat + ov.toNat = e.toNat := by omega
        rw [hidx, hchunk]
        exact dropTakeDrop text start.toNat e.toNat (by omega) (by omega)
      · cases r2 with
        | nil => simp at hr2head
        | cons a b =>
          rw [List.getLast?_cons_cons]
          exact hr2last

theorem splitLoop_mono (cs ov : Int) (text : List Char) :
    ∀ fuel : Nat, ∀ start : Int, ∀ acc r, splitLoop cs ov text fuel start acc = some r →
      splitLoop cs ov text (fuel + 1) start acc = some r := by
  intro fuel
  induction fuel with
  | zero => intro start acc r h; simp [splitLoop] at h
  | succ fuel ih =>
    intro start acc r h
    rw [splitLoop] at h ⊢
    by_cases hA : start < (text.length : Int)
    · rw [if_pos hA] at h ⊢
      set e := min (start + cs) (text.length : Int) with hedef
      set s2 := (if e - ov ≥ e then e else e - ov) with hs2def
      by_cases hB : (text.length : Int) - s2 ≤ ov
      · rw [if_pos hB] at h ⊢; exact h
      · rw [if_neg hB] at h ⊢
        exact ih s2 _ r h
    · rw [if_neg hA] at h ⊢; exact h

theorem splitLoop_ge (cs ov : Int) (text : List Char) (fuel0 : Nat) (start : Int)
    (acc r : List (List Char)) (h : splitLoop cs ov text fuel0 start acc = some r) :
    ∀ fuel : Nat, fuel0 ≤ fuel → splitLoop cs ov text fuel start acc = some r := by
  intro fuel hle
  induction fuel, hle using Nat.le_induction with
  | base => exact h
  | succ fuel hle ih => exact splitLoop_mono cs ov text fuel start acc r ih

/--
C3: Split reconstruction.  For every merged text and every valid
configuration (chunkSize positive, overlap nonnegative and below the
chunk size), the chunking loop succeeds and concatenating its chunks
after removing the designed overlap duplication (each chunk past the
first loses its first overlapSize characters, the ones shared with its
predecessor) reconstructs the merged text exactly; moreover the last
chunk ends with the last character of the text (so for nonempty input
the final chunk contains it).
-/
theorem C3_split_reconstruction (cs ov : Int) (text : List Char)
    (h1 : 0 < cs) (h2 : 0 ≤ ov) (h3 : ov < cs) :
    ∃ chunks, create_chunks (mkTextChunker cs ov) text = some chunks ∧
      glue ov chunks = text ∧
      chunks.getLast?.bind List.getLast? = text.getLast? := by
  by_cases hn : text.length = 0
  · have htext : text = [] := List.length_eq_zero.mp hn
    subst htext
    refine ⟨[], ?_, by simp [glue], by simp⟩
    simp [create_chunks, mkTextChunker, splitLoop]
  · obtain ⟨r, hr, hhead, hne, hglue, hlast⟩ :=
      splitLoop_spec cs ov text h1 h2 h3 (text.length + 1) 0 le_rfl
        (by push_cast; omega) (by push_cast; omega)
    refine ⟨r, ?_, ?_, hlast⟩
    · simpa [create_chunks, mkTextChunker] using hr
    · simpa using hglue

/-- C3 witness: the reconstruction theorem applied to the scenario of
the spec, split of the ten-character text with chunk size four and
overlap one. -/
theorem C3_split_reconstruction_witness :
    ∃ chunks, create_chunks (mkTextChunker 4 1) "abcdefghij".data = some chunks ∧
      glue 1 chunks = "abcdefghij".data ∧
      chunks.getLast?.bind List.getLast? = "abcdefghij".data.getLast? :=
  C3_split_reconstruction 4 1 "abcdefghij".data (by decide) (by decide) (by decide)

/--
C4: Split termination and chunk non-emptiness.  For every valid
configuration (chunkSize positive, overlap nonnegative and below the
chunk size) and every finite text, the chunking loop terminates within
length-plus-one iterations and returns the same chunk list for every
larger fuel (the result is a finite, deterministic sequence); every
emitted chunk is nonempty, and the sequence is empty exactly when the
input text is empty.
-/
theorem C4_split_termination (cs ov : Int) (text : List Char)
    (h1 : 0 < cs) (h2 : 0 ≤ ov) (h3 : ov < cs) :
    ∃ chunks, (∀ fuel : Nat, text.length + 1 ≤ fuel →
        splitLoop cs ov text fuel 0 [] = some chunks) ∧
      create_chunks (mkTextChunker cs ov) text = some chunks ∧
      (∀ ch ∈ chunks, ch ≠ []) ∧
      (chunks = [] ↔ text = []) := by
  by_cases hn : text.length = 0
  · have htext : text = [] := List.length_eq_zero.mp hn
    subst htext
    refine ⟨[], ?_, ?_, by simp, by simp⟩
    · intro fuel hfuel
      have hbase : splitLoop cs ov ([] : List Char) 1 0 [] = some [] := by
        simp [splitLoop]
      exact splitLoop_ge cs ov [] 1 0 [] [] hbase fuel (by simpa using hfuel)
    · simp [create_chunks, mkTextChunker, splitLoop]
  · obtain ⟨r, hr, hhead, hne, hglue, hlast⟩ :=
      splitLoop_spec cs ov text h1 h2 h3 (text.length + 1) 0 le_rfl
        (by push_cast; omega) (by push_cast; omega)
    refine ⟨r, ?_, ?_, hne, ?_⟩
    · intro fuel hfuel
      exact splitLoop_ge cs ov text (text.length + 1) 0 [] r hr fuel hfuel
    · simpa [create_chunks, mkTextChunker] using hr
    · constructor
      · intro hre
        rw [hre] at hhead
        simp at hhead
      · intro htext
        rw [htext] at hn
        simp at hn

/-- C4 witness: the termination theorem applied at chunk size four,
overlap one, on the ten-character scenario text. -/
theorem C4_split_termination_witness :
    ∃ chunks, (∀ fuel : Nat, "abcdefghij".data.length + 1 ≤ fuel →
        splitLoop 4 1 "abcdefghij".data fuel 0 [] = some chunks) ∧
      create_chunks (mkTextChunker 4 1) "abcdefghij".data = some chunks ∧
      (∀ ch ∈ chunks, ch ≠ []) ∧
      (chunks = [] ↔ "abcdefghij".data = []) :=
  C4_split_termination 4 1 "abcdefghij".data (by decide) (by decide) (by decide)

/--
C1 counterexample: the claim says construction with chunkSize zero (or
overlap at least the chunk size) raises InvalidConfiguration, but the
embedded constructor mkTextChunker, like TextChunker.__init__ it
embeds, succeeds on the pair (0, 0) and returns a chunker storing the
invalid sizes verbatim, while the spec-modelled checked constructor
rejects that same pair.
-/
theorem C1_no_validation_counterexample :
    mkTextChunker 0 0 = { chunk_size := 0, overlap_size := 0 } ∧
    specMkTextChunker 0 0 = Except.error "InvalidConfiguration" := by
  constructor
  · rfl
  · simp [specMkTextChunker]

/--
C1 amended: TextChunker construction performs no validation at all:
for every parameter pair, valid or invalid, construction succeeds and
stores chunk_size and overlap_size verbatim; no InvalidConfiguration
check exists at construction time.
-/
theorem C1_construction_stores_parameters (cs ov : Int) :
    (mkTextChunker cs ov).chunk_size = cs ∧ (mkTextChunker cs ov).overlap_size = ov :=
  ⟨rfl, rfl⟩

/--
C5: add_metadata at the failing input of the claim.  The front-matter
block is joined with single newlines, so the trailing empty element of
the line list contributes only the newline that closes the last
three-dash line: the output is the block, one newline, then the
content, with no blank line, although the claim (and the source's own
blank-line-separator comment) expect one.
-/
theorem C5_add_metadata_failing_input :
    add_metadata "# T\nBody" [("author", "A")] = "---\nauthor: A\n---\n# T\nBody" ∧
    ("---\nauthor: A\n---\n\n" : String).data.isPrefixOf
      (add_metadata "# T\nBody" [("author", "A")]).data = false ∧
    add_metadata "# T\nBody" [] = "# T\nBody" := by
  refine ⟨?_, ?_, ?_⟩
  · simp [add_metadata, joinWith, String.ext_iff]
  · simp [add_metadata, joinWith]
    decide
  · simp [add_metadata]

/--
C7: Validation soundness.  Empty content is invalid with the
content-empty error; for non-empty content the short-content and
no-heading conditions produce warnings only, an error is produced
exactly when the count of the two-dollar delimiter is odd, and
validity holds exactly when the error list is empty (warnings never
affect it); the two scenario inputs of the spec behave as claimed.
-/
theorem C7_validate_soundness (content : String) (hne : content ≠ "") :
    (validate_markdown "" =
      { is_valid := false, errors := ["内容为空"], warnings := [] }) ∧
    ((validate_markdown content).is_valid = true ↔ (validate_markdown content).errors = []) ∧
    ((validate_markdown content).errors ≠ [] ↔ countDD content.data % 2 = 1) ∧
    ("内容过短" ∈ (validate_markdown content).warnings ↔ (pyStrip content.data).length < 10) ∧
    ("未找到标题" ∈ (validate_markdown content).warnings ↔ hasHeadingB content.data true = false) ∧
    (validate_markdown "# T\n$$a$$\nBody" =
      { is_valid := true, errors := [], warnings := [] }) ∧
    (validate_markdown "# T\n$$a\nBody" =
      { is_valid := false, errors := ["数学公式标记$$未正确配对"], warnings := [] }) := by
  refine ⟨by simp [validate_markdown], ?_, ?_, ?_, ?_, ?_, ?_⟩
  · by_cases hcd : countDD content.data % 2 ≠ 0 <;>
      simp [validate_markdown, hne, hcd]
  · by_cases hcd : countDD content.data % 2 ≠ 0 <;>
      simp [validate_markdown, hne, hcd] <;> omega
  · by_cases h10 : (pyStrip content.data).length < 10 <;>
      by_cases hhb : hasHeadingB content.data true <;>
        simp [validate_markdown, hne, h10, hhb]
  · by_cases h10 : (pyStrip content.data).length < 10 <;>
      by_cases hhb : hasHeadingB content.data true <;>
        simp [validate_markdown, hne, h10, hhb]
  · simp [validate_markdown, countDD, hasHeadingB, isHashChar, isPySpace, notNlChar,
      pyStrip]
  · simp [validate_markdown, countDD, hasHeadingB, isHashChar, isPySpace, notNlChar,
      pyStrip]

/-- C7 witness: the soundness theorem applied to the second scenario
input of the spec. -/
theorem C7_validate_soundness_witness :
    (validate_markdown "# T\n$$a\nBody").is_valid = true ↔
      (validate_markdown "# T\n$$a\nBody").errors = [] :=
  (C7_validate_soundness "# T\n$$a\nBody" (by decide)).2.1

/--
C10: clean_text_chunk never propagates a collaborator exception: on a
non-blank chunk whose completion call raises, it returns the
deterministic basic-cleaning fallback; consequently the retry loop of
clean_with_retry returns the single first-attempt result whenever at
least one attempt is allowed, so at most one collaborator attempt is
performed per chunk and the TextCleaningError backoff branch is
unreachable.
-/
theorem C10_exception_fallback (stats : CleanerStats) (chunk : String) (err : String)
    (completions : Nat → Except String String) (max_retries : Nat)
    (hblank : pyStrip chunk.data ≠ []) (hmr : 1 ≤ max_retries) :
    (clean_text_chunk stats (Except.error err) chunk).1 = ⟨basicClean chunk.data⟩ ∧
    clean_with_retry stats completions chunk max_retries =
      some (clean_text_chunk stats (completions 0) chunk) := by
  constructor
  · simp [clean_text_chunk, hblank]
  · cases max_retries with
    | zero => omega
    | succ n => simp [clean_with_retry, clean_with_retry_loop]

/-- C10 witness: the fallback theorem applied to a concrete chunk, a
concrete raising completion, and the default retry ceiling of three. -/
theorem C10_exception_fallback_witness :
    (clean_text_chunk ⟨0, 0, 0⟩ (Except.error "timeout") "hi [3] there").1 =
      ⟨basicClean "hi [3] there".data⟩ ∧
    clean_with_retry ⟨0, 0, 0⟩ (fun _ => Except.error "timeout") "hi [3] there" 3 =
      some (clean_text_chunk ⟨0, 0, 0⟩ (Except.error "timeout") "hi [3] there") :=
  C10_exception_fallback ⟨0, 0, 0⟩ "hi [3] there" "timeout"
    (fun _ => Except.error "timeout") 3 (by decide) (by decide)

theorem wsLastNl_some_none : ∀ l r, wsLastNl l = some r → wsLastNl r = none := by
  intro l
  induction l with
  | nil => intro r h; simp [wsLastNl] at h
  | cons c rest ih =>
    intro r h
    simp only [wsLastNl] at h
    split at h
    · cases hx : wsLastNl rest with
      | none =>
        rw [hx] at h
        simp at h
        rw [← h]
        exact hx
      | some r2 =>
        rw [hx] at h
        simp at h
        rw [← h]
        exact ih r2 hx
    · split at h
      · exact ih r h
      · exact absurd h (by simp)

theorem wsLastNl_none_collapse : ∀ l, wsLastNl l = none → wsLastNl (nlCollapse2 l) = none := by
  intro l
  induction l using nlCollapse2.induct with
  | case1 => intro h; simp [nlCollapse2, wsLastNl]
  | case2 c rest h ih =>
    intro hnone
    exfalso
    obtain ⟨hc, -⟩ := h
    subst hc
    simp [wsLastNl] at hnone
  | case3 c rest h ih =>
    intro hnone
    have hcnl : ¬ c = '\n' := by
      intro hc
      subst hc
      simp [wsLastNl] at hnone
    rw [nlCollapse2]
    rw [dif_neg h]
    simp only [wsLastNl]
    rw [if_neg hcnl]
    simp only [wsLastNl] at hnone
    rw [if_neg hcnl] at hnone
    by_cases hws : isPySpace c = true
    · rw [if_pos hws] at hnone ⊢
      exact ih hnone
    · rw [if_neg hws]

theorem nlCollapse2_idem : ∀ l, nlCollapse2 (nlCollapse2 l) = nlCollapse2 l := by
  intro l
  induction l using nlCollapse2.induct with
  | case1 => simp [nlCollapse2]
  | case2 c rest h ih =>
    obtain ⟨hc, hsome⟩ := h
    obtain ⟨r, hr⟩ := Option.isSome_iff_exists.mp hsome
    subst hc
    rw [nlCollapse2]
    rw [dif_pos ⟨rfl, hsome⟩, hr]
    simp only [Option.getD_some]
    simp only [hr, Option.getD_some] at ih
    have hrnone : wsLastNl r = none := wsLastNl_some_none rest r hr
    have hcr : wsLastNl (nlCollapse2 r) = none := wsLastNl_none_collapse r hrnone
    have houter : wsLastNl ('\n' :: nlCollapse2 r) = some (nlCollapse2 r) := by
      simp [wsLastNl, hcr]
    rw [nlCollapse2]
    rw [dif_pos (by rw [houter]; exact ⟨rfl, rfl⟩)]
    rw [houter]
    simp only [Option.getD_some]
    rw [ih]
  | case3 c rest h ih =>
    by_cases hcnl : c = '\n'
    · subst hcnl
      have hnone : wsLastNl rest = none := by
        cases hx : wsLastNl rest with
        | none => rfl
        | some r =>
          exfalso
          exact h ⟨rfl, by rw [hx]; rfl⟩
      rw [nlCollapse2, dif_neg h]
      have hc2 : wsLastNl (nlCollapse2 rest) = none := wsLastNl_none_collapse rest hnone
      rw [nlCollapse2]
      rw [dif_neg (by
        intro hcon
        obtain ⟨-, hsome⟩ := hcon
        rw [hc2] at hsome
        simp at hsome)]
      rw [ih]
    · rw [nlCollapse2, dif_neg h]
      rw [nlCollapse2]
      rw [dif_neg (by
        intro hcon
        exact hcnl hcon.1)]
      rw [ih]

theorem replaceEnd_id : ∀ l, hasEndTag l = false → replaceEnd l = l := by
  intro l
  induction l using replaceEnd.induct with
  | case1 => intro h; simp [replaceEnd]
  | case2 c rest h ih =>
    intro hfalse
    exfalso
    rw [hasEndTag] at hfalse
    rw [h] at hfalse
    simp at hfalse
  | case3 c rest h ih =>
    intro hfalse
    have hb : endTag.isPrefixOf (c :: rest) = false := by
      cases hx : endTag.isPrefixOf (c :: rest)
      · rfl
      · exact absurd hx h
    rw [hasEndTag, hb] at hfalse
    simp at hfalse
    rw [replaceEnd, if_neg (by simp [hb])]
    rw [ih hfalse]

theorem titleSub_id : ∀ l, hasTitlePairB l = false → titleSub l = l := by
  intro l
  induction l using titleSub.induct with
  | case1 => intro h; simp [titleSub]
  | case2 c rest h ih =>
    intro hfalse
    exfalso
    rw [hasTitlePairB] at hfalse
    obtain ⟨h1, h2⟩ := h
    rw [h1, h2] at hfalse
    simp at hfalse
  | case3 c rest h ih =>
    intro hfalse
    rw [hasTitlePairB] at hfalse
    simp only [Bool.or_eq_false_iff] at hfalse
    rw [titleSub, dif_neg (by
      intro hcon
      obtain ⟨h1, h2⟩ := hcon
      have : (openTag.isPrefixOf (c :: rest) && (findClose (rest.drop 6)).isSome) = true := by
        rw [h1, h2]; rfl
      rw [this] at hfalse
      simp at hfalse)]
    rw [ih hfalse.2]

/--
C2 counterexample: marker processing is NOT idempotent on all strings.
For the input with a trailing end marker, the first application yields
a string with a trailing newline (the end-marker transform does not
strip), and the second application strips it away, changing the text.
-/
theorem C2_marker_idempotence_cex :
    process_cleaned_output "a<End>" = "a\n" ∧
    process_cleaned_output (process_cleaned_output "a<End>") = "a" ∧
    ("a\n" : String) ≠ "a" := by
  refine ⟨?_, ?_, by decide⟩
  · simp [process_cleaned_output, process_title_tags, process_end_tags, titleSub,
      replaceEnd, nlCollapse2, wsLastNl, pyStrip, isPySpace, openTag, endTag,
      findClose, List.isPrefixOf, String.ext_iff]
  · simp [process_cleaned_output, process_title_tags, process_end_tags, titleSub,
      replaceEnd, nlCollapse2, wsLastNl, pyStrip, isPySpace, openTag, endTag,
      findClose, List.isPrefixOf, String.ext_iff]

/--
C2 amended: marker processing is idempotent on every input whose first
pass already produces normalized text: when processMarkers of x is
free of end markers and of complete single-line title pairs and
carries no leading or trailing whitespace, a second application leaves
it unchanged (its blank-line structure is always already collapsed,
because the result of the transform ends with the collapsing
substitution, which this file proves idempotent).  Unconditional
idempotence fails because the end transform does not strip; see the
counterexample.
-/
theorem C2_marker_idempotence_cond (x : String)
    (h1 : hasEndTag (process_cleaned_output x).data = false)
    (h2 : hasTitlePairB (process_cleaned_output x).data = false)
    (h3 : pyStrip (process_cleaned_output x).data = (process_cleaned_output x).data) :
    process_cleaned_output (process_cleaned_output x) = process_cleaned_output x := by
  by_cases hy : process_cleaned_output x = ""
  · rw [hy]
    rfl
  · have hyfix : nlCollapse2 (process_cleaned_output x).data = (process_cleaned_output x).data := by
      by_cases hx0 : x = ""
      · exfalso
        apply hy
        rw [hx0]
        rfl
      · have hstep : process_cleaned_output x =
            process_end_tags (process_title_tags x) := by
          rw [process_cleaned_output, if_neg hx0]
        by_cases ht0 : process_title_tags x = ""
        · exfalso
          apply hy
          rw [hstep, ht0]
          rfl
        · have : process_cleaned_output x =
              ⟨nlCollapse2 (replaceEnd (process_title_tags x).data)⟩ := by
            rw [hstep, process_end_tags, if_neg ht0]
          rw [this]
          exact nlCollapse2_idem _
    have htt : process_title_tags (process_cleaned_output x) = process_cleaned_output x := by
      rw [process_title_tags, if_neg hy]
      rw [titleSub_id _ h2, hyfix, h3]
    rw [process_cleaned_output, if_neg hy, htt]
    rw [process_end_tags, if_neg hy]
    rw [replaceEnd_id _ h1, hyfix]

/-- C2 witness: conditional idempotence applied to a concrete input
holding both marker kinds; its first pass gives normalized marker-free
text, so the second application changes nothing. -/
theorem C2_marker_idempotence_cond_witness :
    process_cleaned_output (process_cleaned_output "<Title>A</Title>B<End>C") =
      process_cleaned_output "<Title>A</Title>B<End>C" := by
  have hfx : process_cleaned_output "<Title>A</Title>B<End>C" = "## A\nB\nC" := by
    simp [process_cleaned_output, process_title_tags, process_end_tags, titleSub,
      replaceEnd, nlCollapse2, wsLastNl, pyStrip, isPySpace, openTag, endTag,
      findClose, List.isPrefixOf, String.ext_iff]
  exact C2_marker_idempotence_cond "<Title>A</Title>B<End>C"
    (by rw [hfx]; decide) (by rw [hfx]; decide) (by rw [hfx]; decide)

/-- True when no line of the text opens with a hash character; the
boolean argument tells whether the scan is at a line start, mirroring
the heading scanners. -/
def noHashLineB : List Char → Bool → Bool
  | [], _ => true
  | c :: rest, ls =>
    if ls && isHashChar c then false
    else noHashLineB rest (c = '\n')

theorem scanTitles_empty : ∀ l ls, noHashLineB l ls = true → scanTitles l ls = [] := by
  intro l ls h
  induction l, ls using scanTitles.induct with
  | case1 ls => rw [scanTitles]
  | case2 c rest ls hg hw hr3 =>
    exfalso
    rw [noHashLineB, if_pos hg] at h
    simp at h
  | case3 c rest ls hg hw hr3 ih =>
    exfalso
    rw [noHashLineB, if_pos hg] at h
    simp at h
  | case4 c rest ls hg hw hr2 hp ih =>
    exfalso
    rw [noHashLineB, if_pos hg] at h
    simp at h
  | case5 c rest ls hg hw hr2 hp =>
    exfalso
    rw [noHashLineB, if_pos hg] at h
    simp at h
  | case6 c rest ls hg hw hr2 ih =>
    exfalso
    rw [noHashLineB, if_pos hg] at h
    simp at h
  | case7 ls rest hg ih =>
    rw [noHashLineB, if_neg hg] at h
    rw [scanTitles, dif_neg hg, if_pos rfl]
    exact ih h
  | case8 ls c rest hg hnl ih =>
    rw [noHashLineB, if_neg hg] at h
    rw [scanTitles, dif_neg hg, if_neg hnl]
    have hd : (decide (c = '\n')) = false := by simp [hnl]
    rw [hd] at h
    exact ih h

/--
C6: create_table_of_contents evaluated at the failing input of the
claim: for non-empty content in which no line opens with a hash (so
the heading scan finds nothing), the function returns the EMPTY
string, discarding the content, instead of returning the content
unchanged as the claim states; the call site in main.py line 221
assigns this return value back to the whole document.
-/
theorem C6_toc_discards_headingless_content :
    create_table_of_contents "hello" = "" ∧
    create_table_of_contents "hello" ≠ "hello" ∧
    ("hello" : String) ≠ "" := by
  have h : create_table_of_contents "hello" = "" := by
    simp [create_table_of_contents, scanTitles, isHashChar, String.ext_iff]
  refine ⟨h, ?_, by decide⟩
  rw [h]
  decide

/-- General form of the C6 behaviour: any non-empty content without a
hash-opening line is mapped to the empty string by
create_table_of_contents. -/
theorem toc_empty_of_no_hash_line (content : String) (hne : content ≠ "")
    (hnh : noHashLineB content.data true = true) :
    create_table_of_contents content = "" := by
  rw [create_table_of_contents, if_neg hne]
  rw [scanTitles_empty content.data true hnh]
  simp

theorem dropWhile_head_false (p : Char → Bool) :
    ∀ (l : List Char) (a : Char) (A2 : List Char), l.dropWhile p = a :: A2 → p a = false := by
  intro l
  induction l with
  | nil => intro a A2 h; simp at h
  | cons c rest ih =>
    intro a A2 h
    by_cases hc : p c = true
    · rw [List.dropWhile_cons_of_pos hc] at h
      exact ih a A2 h
    · rw [List.dropWhile_cons_of_neg hc] at h
      have : c = a := (List.cons.injEq _ _ _ _ ▸ h).1
      rw [← this]
      cases hx : p c
      · rfl
      · exact absurd hx hc

theorem pyStrip_dropWhile (l : List Char) :
    (pyStrip l).dropWhile isPySpace = pyStrip l := by
  cases hA : l.dropWhile isPySpace with
  | nil => simp [pyStrip, hA]
  | cons a A2 =>
    have hpa : isPySpace a = false := dropWhile_head_false isPySpace l a A2 hA
    simp only [pyStrip, hA]
    rw [show (a :: A2).reverse = A2.reverse ++ [a] by simp]
    rw [List.dropWhile_append]
    by_cases hE : (A2.reverse.dropWhile isPySpace).isEmpty
    · rw [if_pos hE]
      rw [List.dropWhile_cons_of_neg (by rw [hpa]; simp)]
      simp [List.dropWhile_cons_of_neg (by rw [hpa]; simp : ¬ isPySpace a = true)]
    · rw [if_neg hE]
      rw [List.reverse_append]
      simp only [List.reverse_cons, List.reverse_nil, List.nil_append, List.singleton_append]
      rw [List.dropWhile_cons_of_neg (by rw [hpa]; simp)]

theorem pyStrip_idem (l : List Char) : pyStrip (pyStrip l) = pyStrip l := by
  conv_lhs => rw [pyStrip]
  rw [pyStrip_dropWhile]
  have h2 : (pyStrip l).reverse = (l.dropWhile isPySpace).reverse.dropWhile isPySpace := by
    simp [pyStrip]
  rw [h2, List.dropWhile_idempotent, ← h2]
  simp

theorem pyStrip_cons_keep (c : Char) (l : List Char) (hc : isPySpace c = false) :
    ∃ t, pyStrip (c :: l) = c :: t := by
  simp only [pyStrip]
  rw [List.dropWhile_cons_of_neg (by rw [hc]; simp)]
  rw [show (c :: l).reverse = l.reverse ++ [c] by simp]
  rw [List.dropWhile_append]
  by_cases hE : (l.reverse.dropWhile isPySpace).isEmpty
  · rw [if_pos hE]
    rw [List.dropWhile_cons_of_neg (by rw [hc]; simp)]
    exact ⟨[], by simp⟩
  · rw [if_neg hE]
    rw [List.reverse_append]
    exact ⟨(l.reverse.dropWhile isPySpace).reverse, by simp⟩

theorem nlCollapse3_cons_copy (c : Char) (rest : List Char) (hc : ¬ c = '\n') :
    nlCollapse3 (c :: rest) = c :: nlCollapse3 rest := by
  rw [nlCollapse3]
  rw [dif_neg (by intro hcon; exact hc hcon.1)]

/--
C8 counterexample: for the single chunk that is a space followed by a
hash heading, the joined text does not open with a hash and its first
line is non-empty, so the claim demands the implicit-title rewrite;
the code instead strips the text before testing for the hash, finds
one, and returns the joined text unchanged with no rewrite.
-/
theorem C8_assemble_cex :
    generate_markdown [" # Title"] = " # Title" ∧
    startsWithHash (" # Title" : String).data = false ∧
    (" # Title" : String) ≠ "" := by
  refine ⟨?_, by decide, by decide⟩
  simp [generate_markdown, joinWith, nlCollapse3, wsLastNl2, wsLastNl, isPySpace,
    pyStrip, startsWithHash, String.ext_iff]

/--
C8 amended: assemble joins the chunks with a blank line and returns
the empty string on empty input; the spec scenario holds; when the
JOINED text itself opens with a hash no rewrite occurs and the
collapsed join is returned unchanged; and the implicit-title rewrite
is decided on the STRIPPED collapsed join: when the stripped text does
not open with a hash and its stripped first line is non-empty and
hash-free, the output is that line promoted to a level-one heading,
a blank line, and the remaining stripped lines.
-/
theorem C8_assemble (chunks : List String) (first : List Char) (restLines : List (List Char))
    (hne : chunks ≠ [])
    (hns : startsWithHash
      (pyStrip (nlCollapse3 (joinWith ['\n', '\n'] (chunks.map String.data)))) = false)
    (hsplit : splitLines
      (pyStrip (nlCollapse3 (joinWith ['\n', '\n'] (chunks.map String.data)))) =
      first :: restLines)
    (hfl : pyStrip first ≠ [])
    (hflh : startsWithHash (pyStrip first) = false) :
    generate_markdown [] = "" ∧
    generate_markdown ["# Title", "Body text."] = "# Title\n\nBody text." ∧
    (∀ chunks2 : List String, chunks2 ≠ [] →
      startsWithHash (joinWith ['\n', '\n'] (chunks2.map String.data)) = true →
      generate_markdown chunks2 =
        ⟨nlCollapse3 (joinWith ['\n', '\n'] (chunks2.map String.data))⟩) ∧
    generate_markdown chunks =
      ⟨'#' :: ' ' :: pyStrip first ++ '\n' :: '\n' :: joinWith ['\n'] restLines⟩ := by
  refine ⟨by simp [generate_markdown], ?_, ?_, ?_⟩
  · simp [generate_markdown, joinWith, nlCollapse3, wsLastNl2, wsLastNl, isPySpace,
      pyStrip, startsWithHash, String.ext_iff]
  · intro chunks2 hne2 hsw
    obtain ⟨j, hj⟩ : ∃ j, joinWith ['\n', '\n'] (chunks2.map String.data) = '#' :: j := by
      cases hx : joinWith ['\n', '\n'] (chunks2.map String.data) with
      | nil => rw [hx] at hsw; simp [startsWithHash] at hsw
      | cons a t =>
        rw [hx] at hsw
        simp [startsWithHash] at hsw
        exact ⟨t, by rw [hsw]⟩
    have hcol : nlCollapse3 (joinWith ['\n', '\n'] (chunks2.map String.data)) =
        '#' :: nlCollapse3 j := by
      rw [hj]
      exact nlCollapse3_cons_copy '#' j (by decide)
    obtain ⟨t2, ht2⟩ := pyStrip_cons_keep '#' (nlCollapse3 j) (by decide)
    rw [generate_markdown, if_neg hne2]
    simp only [hcol, ht2]
    simp [startsWithHash]
  · rw [generate_markdown, if_neg hne]
    rw [if_pos (by rw [hns]; simp)]
    rw [hsplit]
    simp [hflh, hfl]

/-- C8 witness: the amended theorem applied to the two-chunk list of
an empty chunk and a plain-text chunk: the collapsed join strips to a
single hash-free line, which the code promotes to an implicit title. -/
theorem C8_assemble_witness :
    generate_markdown [] = "" ∧
    generate_markdown ["# Title", "Body text."] = "# Title\n\nBody text." ∧
    (∀ chunks2 : List String, chunks2 ≠ [] →
      startsWithHash (joinWith ['\n', '\n'] (chunks2.map String.data)) = true →
      generate_markdown chunks2 =
        ⟨nlCollapse3 (joinWith ['\n', '\n'] (chunks2.map String.data))⟩) ∧
    generate_markdown ["", "x"] =
      ⟨'#' :: ' ' :: pyStrip "x".data ++ '\n' :: '\n' :: joinWith ['\n'] []⟩ := by
  apply C8_assemble ["", "x"] "x".data []
  · simp
  · simp [joinWith, nlCollapse3, wsLastNl2, wsLastNl, isPySpace, pyStrip, startsWithHash]
  · simp [joinWith, nlCollapse3, wsLastNl2, wsLastNl, isPySpace, pyStrip, splitLines]
  · simp [pyStrip, isPySpace]
  · simp [pyStrip, isPySpace, startsWithHash]

/-- Closing sentinel of the title marker. -/
def closeTag : List Char := ['<', '/', 'T', 'i', 't', 'l', 'e', '>']

/-- Suffix after the last newline of a whitespace run (empty when the
run has no newline); the characters the blank-line collapse leaves in
place after the two newlines it emits. -/
def afterLastNl : List Char → List Char
  | [] => []
  | c :: rest =>
    if c = '\n' ∧ rest.count '\n' = 0 then rest
    else afterLastNl rest

/-- Head test used to delimit a whitespace run on its right. -/
def headNotSpace : List Char → Bool
  | [] => true
  | c :: _ => !(isPySpace c)

theorem all_notNl_copy : ∀ u rest, u.all notNlChar = true →
    nlCollapse2 (u ++ rest) = u ++ nlCollapse2 rest := by
  intro u
  induction u with
  | nil => intro rest h; simp
  | cons c u2 ih =>
    intro rest h
    simp only [List.all_cons, Bool.and_eq_true] at h
    obtain ⟨hc, hu2⟩ := h
    have hcnl : ¬ c = '\n' := by
      intro hx
      rw [hx] at hc
      simp [notNlChar] at hc
    rw [List.cons_append, nlCollapse2, dif_neg (by intro hcon; exact hcnl hcon.1)]
    rw [ih rest hu2]
    rfl

theorem count_zero_all_notNl (l : List Char) (h : l.count '\n' = 0) :
    l.all notNlChar = true := by
  rw [List.all_eq_true]
  intro x hx
  have hxe : x ≠ '\n' := by
    rw [List.count_eq_zero] at h
    intro hcon
    exact h (hcon ▸ hx)
  simp [notNlChar, hxe]

theorem all_notNl_count_zero (l : List Char) (h : l.all notNlChar = true) :
    l.count '\n' = 0 := by
  rw [List.count_eq_zero]
  intro hmem
  rw [List.all_eq_true] at h
  have := h '\n' hmem
  simp [notNlChar] at this

theorem takeWhile_all_self (p : Char → Bool) (l : List Char) :
    (l.takeWhile p).all p = true := by
  induction l with
  | nil => simp
  | cons c rest ih =>
    by_cases hc : p c = true
    · rw [List.takeWhile_cons_of_pos hc]
      simp [hc, ih]
    · rw [List.takeWhile_cons_of_neg hc]
      simp

theorem split_first_nl (w : List Char) (h : 1 ≤ w.count '\n') :
    ∃ w2, w.dropWhile notNlChar = '\n' :: w2 ∧
      w = w.takeWhile notNlChar ++ '\n' :: w2 ∧
      w2.count '\n' + 1 = w.count '\n' := by
  have hne : w.dropWhile notNlChar ≠ [] := by
    intro hnil
    rw [List.dropWhile_eq_nil_iff] at hnil
    have : w.all notNlChar = true := by
      rw [List.all_eq_true]
      exact hnil
    have := all_notNl_count_zero w this
    omega
  obtain ⟨hd, w2, hw2⟩ : ∃ hd w2, w.dropWhile notNlChar = hd :: w2 := by
    cases hx : w.dropWhile notNlChar with
    | nil => exact absurd hx hne
    | cons a b => exact ⟨a, b, rfl⟩
  have hhd : notNlChar hd = false := dropWhile_head_false notNlChar w hd w2 hw2
  have hhdnl : hd = '\n' := by
    simp [notNlChar] at hhd
    exact hhd
  subst hhdnl
  refine ⟨w2, hw2, ?_, ?_⟩
  · conv_lhs => rw [← List.takeWhile_append_dropWhile (p := notNlChar) (l := w)]
    rw [hw2]
  · have hsplit : w = w.takeWhile notNlChar ++ '\n' :: w2 := by
      conv_lhs => rw [← List.takeWhile_append_dropWhile (p := notNlChar) (l := w)]
      rw [hw2]
    have hcount : w.count '\n' =
        (w.takeWhile notNlChar).count '\n' + ('\n' :: w2).count '\n' := by
      conv_lhs => rw [hsplit]
      rw [List.count_append]
    have htw : (w.takeWhile notNlChar).count '\n' = 0 :=
      all_notNl_count_zero _ (takeWhile_all_self notNlChar w)
    rw [htw] at hcount
    simp [List.count_cons] at hcount
    omega

theorem afterLastNl_pre (pre x : List Char) (h : pre.all notNlChar = true) :
    afterLastNl (pre ++ x) = afterLastNl x := by
  induction pre with
  | nil => simp
  | cons c p2 ih =>
    simp only [List.all_cons, Bool.and_eq_true] at h
    obtain ⟨hc, hp2⟩ := h
    have hcnl : ¬ c = '\n' := by
      intro hx
      rw [hx] at hc
      simp [notNlChar] at hc
    rw [List.cons_append, afterLastNl, if_neg (by intro hcon; exact hcnl hcon.1)]
    exact ih hp2

theorem afterLastNl_no_nl : ∀ w, (afterLastNl w).all notNlChar = true := by
  intro w
  induction w with
  | nil => simp [afterLastNl]
  | cons c rest ih =>
    rw [afterLastNl]
    split
    · rename_i hcon
      exact count_zero_all_notNl rest hcon.2
    · exact ih

theorem afterLastNl_sub_all (p : Char → Bool) : ∀ w, w.all p = true →
    (afterLastNl w).all p = true := by
  intro w
  induction w with
  | nil => intro h; simp [afterLastNl]
  | cons c rest ih =>
    intro h
    simp only [List.all_cons, Bool.and_eq_true] at h
    rw [afterLastNl]
    split
    · rw [List.all_eq_true]
      rw [List.all_eq_true] at h
      intro x hx
      exact h.2 x hx
    · exact ih h.2

theorem wsLastNl_ws_append : ∀ w v, w.all isPySpace = true → headNotSpace v = true →
    wsLastNl (w ++ v) = if 1 ≤ w.count '\n' then some (afterLastNl w ++ v) else none := by
  intro w
  induction w with
  | nil =>
    intro v hw hv
    simp only [List.nil_append, List.count_nil]
    rw [if_neg (by omega)]
    cases v with
    | nil => rfl
    | cons c v2 =>
      simp only [headNotSpace] at hv
      have hc : isPySpace c = false := by
        cases hx : isPySpace c
        · rfl
        · rw [hx] at hv; simp at hv
      have hcnl : ¬ c = '\n' := by
        intro hx
        subst hx
        simp [isPySpace] at hc
      simp only [wsLastNl]
      rw [if_neg hcnl, if_neg (by rw [hc]; simp)]
  | cons c w2 ih =>
    intro v hw hv
    simp only [List.all_cons, Bool.and_eq_true] at hw
    obtain ⟨hc, hw2⟩ := hw
    by_cases hcnl : c = '\n'
    · subst hcnl
      rw [List.cons_append]
      simp only [wsLastNl, if_true]
      rw [ih v hw2 hv]
      by_cases h1 : 1 ≤ w2.count '\n'
      · rw [if_pos h1]
        simp only [Option.getD_some]
        have hcnt : 1 ≤ ('\n' :: w2).count '\n' := by
          simp [List.count_cons]
        rw [if_pos hcnt]
        have hafter : afterLastNl ('\n' :: w2) = afterLastNl w2 := by
          rw [afterLastNl]
          rw [if_neg (by intro hcon; exact absurd hcon.2 (by omega))]
        rw [hafter]
      · rw [if_neg h1]
        simp only [Option.getD_none]
        have hcnt : 1 ≤ ('\n' :: w2).count '\n' := by
          simp [List.count_cons]
        rw [if_pos hcnt]
        have hafter : afterLastNl ('\n' :: w2) = w2 := by
          rw [afterLastNl]
          rw [if_pos ⟨rfl, by omega⟩]
        rw [hafter]
    · rw [List.cons_append]
      simp only [wsLastNl]
      rw [if_neg hcnl, if_pos hc]
      rw [ih v hw2 hv]
      have hcount : (c :: w2).count '\n' = w2.count '\n' := by
        simp [List.count_cons, hcnl]
      rw [hcount]
      have hafter : afterLastNl (c :: w2) = afterLastNl w2 := by
        rw [afterLastNl]
        rw [if_neg (by intro hcon; exact hcnl hcon.1)]
      rw [hafter]

theorem collapse_run_core (w v : List Char)
    (hw : w.all isPySpace = true) (hv : headNotSpace v = true) :
    nlCollapse2 (w ++ v) =
      (if 2 ≤ w.count '\n' then
        w.takeWhile notNlChar ++ '\n' :: '\n' :: afterLastNl w
      else w) ++ nlCollapse2 v := by
  by_cases h2 : 2 ≤ w.count '\n'
  · rw [if_pos h2]
    obtain ⟨w2, hdw, hsplit, hcount⟩ := split_first_nl w (by omega)
    have hw2all : w2.all isPySpace = true := by
      rw [hsplit] at hw
      simp only [List.all_append, List.all_cons, Bool.and_eq_true] at hw
      exact hw.2.2
    have hpre_all : (w.takeWhile notNlChar).all notNlChar = true :=
      takeWhile_all_self notNlChar w
    conv_lhs => rw [hsplit]
    rw [List.append_assoc, all_notNl_copy _ _ hpre_all]
    rw [List.cons_append]
    rw [nlCollapse2]
    have hws : wsLastNl (w2 ++ v) = some (afterLastNl w2 ++ v) := by
      rw [wsLastNl_ws_append w2 v hw2all hv, if_pos (by omega)]
    rw [dif_pos (by rw [hws]; exact ⟨rfl, rfl⟩)]
    rw [hws]
    simp only [Option.getD_some]
    have hafter_all : (afterLastNl w2).all notNlChar = true := afterLastNl_no_nl w2
    rw [all_notNl_copy _ _ hafter_all]
    have hlast : afterLastNl w = afterLastNl w2 := by
      conv_lhs => rw [hsplit]
      rw [afterLastNl_pre _ _ hpre_all]
      rw [afterLastNl, if_neg (by intro hcon; omega)]
    rw [hlast]
    simp
  · rw [if_neg h2]
    by_cases h1 : 1 ≤ w.count '\n'
    · obtain ⟨w2, hdw, hsplit, hcount⟩ := split_first_nl w h1
      have hw2nl : w2.count '\n' = 0 := by omega
      have hw2all : w2.all notNlChar = true := count_zero_all_notNl w2 hw2nl
      have hpre_all : (w.takeWhile notNlChar).all notNlChar = true :=
        takeWhile_all_self notNlChar w
      conv_lhs => rw [hsplit]
      conv_rhs => rw [hsplit]
      rw [List.append_assoc, all_notNl_copy _ _ hpre_all]
      rw [List.cons_append]
      rw [nlCollapse2]
      have hws : wsLastNl (w2 ++ v) = none := by
        have hw2allsp : w2.all isPySpace = true := by
          rw [hsplit] at hw
          simp only [List.all_append, List.all_cons, Bool.and_eq_true] at hw
          exact hw.2.2
        rw [wsLastNl_ws_append w2 v hw2allsp hv, if_neg (by omega)]
      rw [dif_neg (by
        intro hcon
        rw [hws] at hcon
        simp at hcon)]
      rw [all_notNl_copy _ _ hw2all]
      simp
    · have hw0 : w.count '\n' = 0 := by omega
      rw [all_notNl_copy _ _ (count_zero_all_notNl w hw0)]

theorem isPrefixOf_self_append : ∀ l r : List Char, l.isPrefixOf (l ++ r) = true := by
  intro l
  induction l with
  | nil => intro r; simp [List.isPrefixOf]
  | cons c l2 ih =>
    intro r
    simp only [List.cons_append, List.isPrefixOf, Bool.and_eq_true]
    exact ⟨by simp, ih r⟩

theorem prefix_thru_replaceEnd : ∀ (piece m : List Char), piece.all notNlChar = true →
    piece.isPrefixOf (replaceEnd m) = true → piece.isPrefixOf m = true := by
  intro piece
  induction piece with
  | nil => intro m h hp; simp [List.isPrefixOf]
  | cons p piece2 ih =>
    intro m h hp
    simp only [List.all_cons, Bool.and_eq_true] at h
    obtain ⟨hpnl, hall⟩ := h
    cases m with
    | nil => simp [replaceEnd, List.isPrefixOf] at hp
    | cons c rest =>
      by_cases hmatch : endTag.isPrefixOf (c :: rest) = true
      · rw [replaceEnd, if_pos hmatch] at hp
        exfalso
        simp only [List.isPrefixOf, Bool.and_eq_true] at hp
        have hp1 : p = '\n' := by
          have := hp.1
          simpa using this
        rw [hp1] at hpnl
        simp [notNlChar] at hpnl
      · rw [replaceEnd, if_neg hmatch] at hp
        simp only [List.isPrefixOf, Bool.and_eq_true] at hp ⊢
        exact ⟨hp.1, ih rest hall hp.2⟩

theorem replaceEnd_no_end : ∀ l, hasEndTag (replaceEnd l) = false := by
  intro l
  induction l using replaceEnd.induct with
  | case1 => simp [replaceEnd, hasEndTag]
  | case2 c rest h ih =>
    rw [replaceEnd, if_pos h]
    rw [hasEndTag]
    have h1 : endTag.isPrefixOf ('\n' :: replaceEnd (rest.drop 4)) = false := by
      simp [endTag, List.isPrefixOf]
    rw [h1]
    simp [ih]
  | case3 c rest h ih =>
    have hb : endTag.isPrefixOf (c :: rest) = false := by
      cases hx : endTag.isPrefixOf (c :: rest)
      · rfl
      · exact absurd hx h
    rw [replaceEnd, if_neg (by rw [hb]; simp)]
    rw [hasEndTag]
    have h1 : endTag.isPrefixOf (c :: replaceEnd rest) = false := by
      cases hx : endTag.isPrefixOf (c :: replaceEnd rest)
      · rfl
      · exfalso
        simp only [endTag, List.isPrefixOf, Bool.and_eq_true] at hx
        obtain ⟨hc, htail⟩ := hx
        have htail2 : (['E', 'n', 'd', '>'] : List Char).isPrefixOf rest = true :=
          prefix_thru_replaceEnd ['E', 'n', 'd', '>'] rest (by decide) htail
        rw [endTag] at hb
        simp only [List.isPrefixOf] at hb
        rw [Bool.eq_false_iff] at hb
        exact hb ((Bool.and_eq_true _ _).mpr ⟨hc, htail2⟩)
    rw [h1]
    simp [ih]

/-- True when no position strictly inside the first list starts a
close tag in the concatenation with the given continuation; the
condition under which a non-greedy close-tag search skips the whole
first list. -/
def noCloseStart : List Char → List Char → Bool
  | [], _ => true
  | x :: X2, ctx => !(closeTag.isPrefixOf ((x :: X2) ++ ctx)) && noCloseStart X2 ctx

theorem findClose_append : ∀ X r, X.all notNlChar = true →
    noCloseStart X (closeTag ++ r) = true →
    findClose (X ++ (closeTag ++ r)) = some (X, r) := by
  intro X
  induction X with
  | nil =>
    intro r hX hnc
    simp only [List.nil_append, closeTag]
    rfl
  | cons x X2 ih =>
    intro r hX hnc
    simp only [List.all_cons, Bool.and_eq_true] at hX
    obtain ⟨hxnl, hall⟩ := hX
    simp only [noCloseStart, Bool.and_eq_true] at hnc
    obtain ⟨hnc1, hnc2⟩ := hnc
    rw [List.cons_append, findClose.eq_def]
    split
    · rename_i rest2 heq
      exfalso
      have hpre : closeTag.isPrefixOf ((x :: X2) ++ (closeTag ++ r)) = true := by
        rw [List.cons_append, heq]
        have : ('<' :: '/' :: 'T' :: 'i' :: 't' :: 'l' :: 'e' :: '>' :: rest2 : List Char) =
            closeTag ++ rest2 := rfl
        rw [this]
        exact isPrefixOf_self_append closeTag rest2
      rw [hpre] at hnc1
      simp at hnc1
    · rename_i heq
      exact absurd heq (by simp)
    · rename_i c2 rest2 hno hne
      simp only [List.cons.injEq] at hne
      obtain ⟨hxc, hrest⟩ := hne
      subst hxc
      rw [if_neg (by
        intro hcon
        rw [hcon] at hxnl
        simp [notNlChar] at hxnl)]
      rw [← hrest, ih r hall hnc2]
      rfl

theorem titleSub_single (X r : List Char) (hX : X.all notNlChar = true)
    (hnc : noCloseStart X (closeTag ++ r) = true) :
    titleSub (openTag ++ (X ++ (closeTag ++ r))) =
      '\n' :: '#' :: '#' :: ' ' :: (X ++ '\n' :: titleSub r) := by
  have harg : openTag ++ (X ++ (closeTag ++ r)) =
      '<' :: ('T' :: 'i' :: 't' :: 'l' :: 'e' :: '>' :: (X ++ (closeTag ++ r))) := rfl
  have hfc := findClose_append X r hX hnc
  rw [harg, titleSub]
  have hdrop : ('T' :: 'i' :: 't' :: 'l' :: 'e' :: '>' :: (X ++ (closeTag ++ r))).drop 6 =
      X ++ (closeTag ++ r) := rfl
  rw [dif_pos (by
    constructor
    · rw [← harg]
      exact isPrefixOf_self_append openTag (X ++ (closeTag ++ r))
    · rw [hdrop, hfc]
      rfl)]
  rw [hdrop, hfc]
  rfl

/--
C9 counterexample: two parts of the claim fail on the code.  The
end-marker transform does not trim: its output on the input with a
trailing end marker keeps a trailing newline.  And a run of only TWO
newlines separated by whitespace is not left unchanged: the collapse
removes the whitespace between them.
-/
theorem C9_transforms_cex :
    process_end_tags "a<End>" = "a\n" ∧
    pyStrip (process_end_tags "a<End>").data ≠ (process_end_tags "a<End>").data ∧
    process_end_tags "x\n \ny" = "x\n\ny" ∧
    ("x\n \ny" : String) ≠ "x\n\ny" := by
  have h1 : process_end_tags "a<End>" = "a\n" := by
    simp [process_end_tags, replaceEnd, nlCollapse2, wsLastNl, isPySpace, endTag,
      List.isPrefixOf, String.ext_iff]
  have h2 : process_end_tags "x\n \ny" = "x\n\ny" := by
    simp [process_end_tags, replaceEnd, nlCollapse2, wsLastNl, isPySpace, endTag,
      List.isPrefixOf, String.ext_iff]
  refine ⟨h1, ?_, h2, by decide⟩
  rw [h1]
  decide

/--
C9 amended: the transforms behave as claimed except that the trim
applies to the title transform only and that the collapse already
normalizes TWO-newline runs when whitespace separates them.  In one
statement: on marker-free non-empty text the end transform is exactly
the blank-line collapse with no trim; the title transform's output
always equals its own stripped form; the end-marker replacement leaves
no end marker behind; a single-line title pair is rewritten to a
level-two heading between newlines; and the collapse maps any
whitespace run holding at least two newlines to its non-newline
prefix, exactly two newlines, and its non-newline suffix, leaving runs
with fewer newlines unchanged (contexts: newline-free text on the
left, non-whitespace or end on the right).
-/
theorem C9_marker_transforms (x : String) (u w v X r : List Char)
    (hxne : x ≠ "") (hxend : hasEndTag x.data = false)
    (hu : u.all notNlChar = true) (hw : w.all isPySpace = true)
    (hv : headNotSpace v = true)
    (hX : X.all notNlChar = true) (hnc : noCloseStart X (closeTag ++ r) = true) :
    process_end_tags x = ⟨nlCollapse2 x.data⟩ ∧
    (∀ y : String, process_title_tags y = ⟨pyStrip (process_title_tags y).data⟩) ∧
    (∀ l : List Char, hasEndTag (replaceEnd l) = false) ∧
    titleSub (openTag ++ (X ++ (closeTag ++ r))) =
      '\n' :: '#' :: '#' :: ' ' :: (X ++ '\n' :: titleSub r) ∧
    nlCollapse2 (u ++ (w ++ v)) =
      u ++ ((if 2 ≤ w.count '\n' then
        w.takeWhile notNlChar ++ '\n' :: '\n' :: afterLastNl w
      else w) ++ nlCollapse2 v) := by
  refine ⟨?_, ?_, replaceEnd_no_end, titleSub_single X r hX hnc, ?_⟩
  · rw [process_end_tags, if_neg hxne, replaceEnd_id _ hxend]
  · intro y
    by_cases hy : y = ""
    · rw [hy]
      rfl
    · rw [process_title_tags, if_neg hy]
      show (⟨pyStrip (nlCollapse2 (titleSub y.data))⟩ : String) =
        ⟨pyStrip (pyStrip (nlCollapse2 (titleSub y.data)))⟩
      rw [pyStrip_idem]
  · rw [all_notNl_copy u _ hu, collapse_run_core w v hw hv]

/-- C9 witness: the amended theorem applied at concrete values: plain
two-line text for the end transform, the run of a space and newline,
space, newline, tab between two letters for the collapse, and a short
single-line title body with a trailing remainder for the pair
rewrite. -/
theorem C9_marker_transforms_witness :
    process_end_tags "a\nb" = ⟨nlCollapse2 "a\nb".data⟩ ∧
    (∀ y : String, process_title_tags y = ⟨pyStrip (process_title_tags y).data⟩) ∧
    (∀ l : List Char, hasEndTag (replaceEnd l) = false) ∧
    titleSub (openTag ++ ("T1".data ++ (closeTag ++ "rest".data))) =
      '\n' :: '#' :: '#' :: ' ' :: ("T1".data ++ '\n' :: titleSub "rest".data) ∧
    nlCollapse2 (['a'] ++ ([' ', '\n', ' ', '\n', '\t'] ++ ['b'])) =
      ['a'] ++ ((if 2 ≤ ([' ', '\n', ' ', '\n', '\t'] : List Char).count '\n' then
        ([' ', '\n', ' ', '\n', '\t'] : List Char).takeWhile notNlChar ++
          '\n' :: '\n' :: afterLastNl [' ', '\n', ' ', '\n', '\t']
      else [' ', '\n', ' ', '\n', '\t']) ++ nlCollapse2 ['b']) :=
  C9_marker_transforms "a\nb" ['a'] [' ', '\n', ' ', '\n', '\t'] ['b'] "T1".data "rest".data
    (by decide) (by decide) (by decide) (by decide) (by decide) (by decide) (by decide)
